import Mathlib

/-!
Verification development for the Vocalbot check-in ledger, progression engine
and reminder scheduler (`src/vocal_bot.py`).

The relational store is embedded shallowly: each sqlite table becomes a Lean
list of rows, and each handler becomes a pure function on a `St` record.
Timestamps (`ts`) and calendar dates (`local_date`) are natural numbers; dates
count days from an epoch Monday, so `weekday d = d % 7` matches Python
`date.weekday()` (Monday = 0) and `weekStart d = d - d % 7` matches
`week_start_iso`.  External transports (Telegram sends, Google Sheets
mirroring) have no effect on the relational state and are not modelled;
`GROUP_CHAT_ID` being configured is the boolean `groupChat` parameter.
Python strings handled by the reminder codec are embedded as `List Char`.
-/

/-- XP_PER_CHECKIN constant (vocal_bot.py line 35, default value). -/
def XP_PER_CHECKIN : Nat := 10

/-- XP_BONUS_FULL_WEEK constant (line 36, default value). -/
def XP_BONUS_FULL_WEEK : Nat := 30

/-- DEFAULT_MINUTES constant (line 85, default value). -/
def DEFAULT_MINUTES : Nat := 20

/-- LEVEL_THRESHOLDS (line 40). -/
def LEVEL_THRESHOLDS : List Nat := [0, 50, 120, 210, 320, 450, 600, 800, 1050]

/-- level_for_xp (lines 42-47): scan the thresholds with a 1-based index,
keeping the last index whose threshold is at most xp, starting from level 1. -/
def level_for_xp (xp : Nat) : Nat :=
  (LEVEL_THRESHOLDS.foldl
    (fun acc th => (acc.1 + 1, if th ≤ xp then acc.1 + 1 else acc.2)) (0, 1)).2

/-- BADGE_TITLES lookup with default (lines 64-69 and the `.get(code, code)`
call in award_badge). -/
def BADGE_TITLES (code : String) : String :=
  if code = "FIRST_FULL_WEEK" then "First 3/3"
  else if code = "FOUR_WEEK_STREAK" then "4-Week Streak"
  else if code = "EARLY_BIRD" then "Early Bird (Monday start)"
  else if code = "COMEBACK" then "Comeback (back after a zero week)"
  else code

/-- TEAM roster (line 82). -/
def TEAM : List String :=
  ["Isayas", "Sahara", "Zufan", "Mike", "Sami", "Barok", "Betty", "Ruth"]

/-- Monday anchoring a date (week_start_iso, lines 393-396): dates are days
from an epoch Monday. -/
def weekStart (d : Nat) : Nat := d - d % 7

/-- Python date.weekday(): Monday = 0. -/
def weekday (d : Nat) : Nat := d % 7

/-- Row of the `checkins` table (columns as inserted at lines 1105-1106). -/
structure Rec where
  id : Nat
  telegram_id : Nat
  team_name : String
  week_start : Nat
  day : Nat
  minutes : Nat
  ts : Nat
  local_date : Nat
deriving DecidableEq, Repr

/-- Row of the `xp` table (lines 328-335). -/
structure XpRow where
  telegram_id : Nat
  team_name : String
  xp : Nat
  level : Nat
  last_badge : Option String
deriving DecidableEq, Repr

/-- Row of the `badges` table (lines 336-345); the autoincrement id is not
consulted by any query and is omitted. -/
structure BadgeRow where
  telegram_id : Nat
  team_name : String
  badge_code : String
  badge_title : String
  awarded_ts : Nat
  week_start : Option Nat
deriving DecidableEq, Repr

/-- The relational store: users, checkins, xp, badges tables plus the next
autoincrement id for checkins. -/
structure St where
  users : List (Nat × String)
  checkins : List Rec
  xp : List XpRow
  badges : List BadgeRow
  nextId : Nat
deriving DecidableEq, Repr

/-- Empty database; sqlite autoincrement ids start at 1. -/
def St.initial : St := ⟨[], [], [], [], 1⟩

/-- get_or_create_xp (lines 462-474): returns (xp, level, last_badge) and the
possibly-extended table. -/
def get_or_create_xp (t : List XpRow) (tid : Nat) (team_name : String) :
    (Nat × Nat × Option String) × List XpRow :=
  match t.find? (fun r => r.telegram_id == tid) with
  | some r => ((r.xp, r.level, r.last_badge), t)
  | none => ((0, 1, none), ⟨tid, team_name, 0, 1, none⟩ :: t)

/-- set_xp (lines 476-480): REPLACE INTO keyed by telegram_id. -/
def set_xp (t : List XpRow) (tid : Nat) (team_name : String) (xp level : Nat)
    (last_badge : Option String) : List XpRow :=
  ⟨tid, team_name, xp, level, last_badge⟩ ::
    t.filter fun r => decide (r.telegram_id ≠ tid)

/-- award_badge (lines 493-512): no-op returning false when the
(telegram_id, badge_code) pair already exists, otherwise insert the badge row
and record it as last_badge in the xp table. -/
def award_badge (s : St) (tid : Nat) (team_name code : String)
    (wk : Option Nat) (ts : Nat) : Bool × St :=
  if ∃ b ∈ s.badges, b.telegram_id = tid ∧ b.badge_code = code then (false, s)
  else
    let s1 : St :=
      { s with badges := ⟨tid, team_name, code, BADGE_TITLES code, ts, wk⟩ :: s.badges }
    let g := get_or_create_xp s1.xp tid team_name
    (true, { s1 with xp := set_xp g.2 tid team_name g.1.1 g.1.2.1 (some code) })

/-- Python `set(done_days_for_week) == {1,2,3}` (lines 516 and 525). -/
def setEq123 (l : List Nat) : Prop :=
  1 ∈ l ∧ 2 ∈ l ∧ 3 ∈ l ∧ ∀ d ∈ l, d ∈ ([1, 2, 3] : List Nat)

instance : DecidablePred setEq123 := fun l => by
  unfold setEq123; infer_instance

/-- maybe_award_condition_badges (lines 514-528): evaluate the four badge
conditions in order, threading the store. -/
def maybe_award_condition_badges (s : St) (tid : Nat) (team_name : String)
    (wk : Nat) (done_days_for_week : List Nat) (weekly_streak_full : Nat)
    (was_zero_last_week monday_logged : Bool) (ts : Nat) : List String × St :=
  let p1 := if setEq123 done_days_for_week then
      award_badge s tid team_name "FIRST_FULL_WEEK" (some wk) ts else (false, s)
  let e1 : List String := if p1.1 then ["FIRST_FULL_WEEK"] else []
  let p2 := if 4 ≤ weekly_streak_full then
      award_badge p1.2 tid team_name "FOUR_WEEK_STREAK" (some wk) ts else (false, p1.2)
  let e2 := e1 ++ if p2.1 then ["FOUR_WEEK_STREAK"] else []
  let p3 := if monday_logged then
      award_badge p2.2 tid team_name "EARLY_BIRD" (some wk) ts else (false, p2.2)
  let e3 := e2 ++ if p3.1 then ["EARLY_BIRD"] else []
  let p4 := if was_zero_last_week ∧ setEq123 done_days_for_week then
      award_badge p3.2 tid team_name "COMEBACK" (some wk) ts else (false, p3.2)
  (e3 ++ if p4.1 then ["COMEBACK"] else [], p4.2)

/-- Records of one member in one week (the WHERE clause of lines 1092, 1113,
1306-1308). -/
def weekRecs (cs : List Rec) (tid wk : Nat) : List Rec :=
  cs.filter fun r => decide (r.telegram_id = tid ∧ r.week_start = wk)

/-- SELECT DISTINCT day for a member and week (line 1092). -/
def daysOf (cs : List Rec) (tid wk : Nat) : List Nat :=
  ((weekRecs cs tid wk).map (fun r => r.day)).dedup

/-- COUNT(DISTINCT day) for a team name and week (the GROUP BY of lines
1119-1120 and 1324-1326). -/
def nameWeekCount (cs : List Rec) (team_name : String) (wk : Nat) : Nat :=
  (((cs.filter fun r => decide (r.team_name = team_name ∧ r.week_start = wk)).map
      (fun r => r.day)).dedup).length

/-- Distinct week_start values of a team name, descending (the GROUP BY ...
ORDER BY week_start DESC of lines 1119-1120 and 1324-1326).  Weeks with no
rows produce no group and so do not appear. -/
def weeksDescOf (cs : List Rec) (team_name : String) : List Nat :=
  (((cs.filter fun r => decide (r.team_name = team_name)).map
      (fun r => r.week_start)).dedup).insertionSort (fun a b => b ≤ a)

/-- Streak walk (lines 1116-1125 inside cb_day and 1323-1331 in streaks):
count the leading weeks, in descending order of week_start, whose distinct-day
count is 3. -/
def streakOf (cs : List Rec) (team_name : String) : Nat :=
  ((weeksDescOf cs team_name).takeWhile
    (fun wk => decide (nameWeekCount cs team_name wk = 3))).length

/-- Python max over a nonempty list of days (line 1094). -/
def listMax (l : List Nat) : Nat := l.foldr Nat.max 0

/-- The record inserted at lines 1105-1106. -/
def mkRec (nid tid : Nat) (team_name : String) (wk day ts local_date : Nat) : Rec :=
  ⟨nid, tid, team_name, wk, day, DEFAULT_MINUTES, ts, local_date⟩

/-- Outcomes of the cb_day handler, one per user-visible reply. -/
inductive CbResult where
  | notRegistered
  | alreadyToday (local_date : Nat)
  | outOfOrder (next_needed : Nat)
  | logged (day : Nat)
  | alreadyLogged (day : Nat)
deriving DecidableEq, Repr

/-- cb_day from the insert onwards (lines 1103-1196): attempt the insert under
the unique daily index `ux_checkins_daily` (an IntegrityError leaves
`logged_ok` false, line 1109-1110), recount the week, compute the streak and
badge flags, add the per-checkin XP unconditionally, evaluate badges, and add
the weekly full-week bonus when the post-insert distinct count is 3 and the
group chat is configured.  `done_days` is the distinct-day list computed by the
guards earlier; taking the store at insert time as a separate argument exposes
the race window between the guards and the insert. -/
def cb_day_post (s : St) (tid : Nat) (team_name : String) (day date ts : Nat)
    (done_days : List Nat) (groupChat : Bool) : St × CbResult :=
  let wk := weekStart date
  let logged_ok : Bool :=
    decide (¬ ∃ r ∈ s.checkins, r.telegram_id = tid ∧ r.local_date = date)
  let checkins1 :=
    if logged_ok then mkRec s.nextId tid team_name wk day ts date :: s.checkins
    else s.checkins
  let nextId1 := if logged_ok then s.nextId + 1 else s.nextId
  let cnt := (daysOf checkins1 tid wk).length
  let streak_full := streakOf checkins1 team_name
  let was_zero_last_week : Bool :=
    decide ((checkins1.filter fun r =>
      decide (r.team_name = team_name ∧ r.week_start = wk - 7)).length = 0)
  let monday_logged : Bool := decide (weekday date = 0)
  let s1 : St := { s with checkins := checkins1, nextId := nextId1 }
  let g1 := get_or_create_xp s1.xp tid team_name
  let xp1 := g1.1.1 + XP_PER_CHECKIN
  let s2 : St := { s1 with xp := set_xp g1.2 tid team_name xp1 (level_for_xp xp1) none }
  let mb := maybe_award_condition_badges s2 tid team_name wk
      ((done_days ++ (if logged_ok then [day] else [])).insertionSort (· ≤ ·))
      streak_full was_zero_last_week monday_logged ts
  let s3 := mb.2
  let s4 : St :=
    if cnt = 3 ∧ groupChat then
      let g2 := get_or_create_xp s3.xp tid team_name
      let xp2 := g2.1.1 + XP_BONUS_FULL_WEEK
      { s3 with xp := set_xp g2.2 tid team_name xp2 (level_for_xp xp2) none }
    else s3
  (s4, if logged_ok then CbResult.logged day else CbResult.alreadyLogged day)

/-- Computation of the next required slot (lines 1092-1094): 1 when the member
has no distinct day this week, otherwise the maximal claimed day plus one. -/
def next_needed (cs : List Rec) (tid wk : Nat) : Nat :=
  let done_days := (daysOf cs tid wk).insertionSort (· ≤ ·)
  if done_days = [] then 1 else listMax done_days + 1

/-- cb_day (lines 1063-1196): roster lookup, daily guard (lines 1085-1089),
consecutive-order guard (lines 1091-1101), then the insert phase. -/
def cb_day (s : St) (tid day date ts : Nat) (groupChat : Bool) : St × CbResult :=
  match s.users.lookup tid with
  | none => (s, CbResult.notRegistered)
  | some team_name =>
    let wk := weekStart date
    if ∃ r ∈ s.checkins, r.telegram_id = tid ∧ r.local_date = date then
      (s, CbResult.alreadyToday date)
    else
      let done_days := (daysOf s.checkins tid wk).insertionSort (· ≤ ·)
      if day ≠ next_needed s.checkins tid wk then
        (s, CbResult.outOfOrder (next_needed s.checkins tid wk))
      else cb_day_post s tid team_name day date ts done_days groupChat

/-- Outcomes of the undo handler. -/
inductive UndoResult where
  | noCheckins
  | removed (day ts : Nat)
deriving DecidableEq, Repr

/-- ORDER BY ts DESC LIMIT 1 (lines 1306-1308): pick a record with maximal ts. -/
def lastByTs : List Rec → Option Rec
  | [] => none
  | r :: rs =>
    match lastByTs rs with
    | none => some r
    | some m => if m.ts ≤ r.ts then some r else some m

/-- undo (lines 1302-1317): delete the most recent record of the member in the
current week, reported no-op when there is none. -/
def undoOp (s : St) (tid date : Nat) : St × UndoResult :=
  let wk := weekStart date
  match lastByTs (weekRecs s.checkins tid wk) with
  | none => (s, UndoResult.noCheckins)
  | some r =>
    ({ s with checkins := s.checkins.filter fun q => decide (q.id ≠ r.id) },
     UndoResult.removed r.day r.ts)

/-- register (lines 991-1002): REPLACE INTO users keyed by telegram_id, only
for roster names. -/
def registerOp (s : St) (tid : Nat) (name : String) : St :=
  if name ∈ TEAM then
    { s with users := (tid, name) :: s.users.filter fun u => decide (u.1 ≠ tid) }
  else s

/-- All checkin timestamps precede ts and all dates are at most date: the
wall clock moves forward between handler invocations. -/
def freshCheckin (s : St) (date ts : Nat) : Prop :=
  ∀ r ∈ s.checkins, r.ts < ts ∧ r.local_date ≤ date

/-- date is today or later than every recorded local_date. -/
def currentDate (s : St) (date : Nat) : Prop :=
  ∀ r ∈ s.checkins, r.local_date ≤ date

/-- States reachable from the empty database through the handlers.  Check-in
requests carry a slot from the Day 1/2/3 keyboard (kb_days, lines 402-407), so
day ranges over 1..3; each invocation happens at a timestamp strictly after
every recorded one and at a date no earlier than any recorded local_date. -/
inductive Reachable : St → Prop where
  | init : Reachable St.initial
  | reg (s : St) (tid : Nat) (name : String) :
      Reachable s → Reachable (registerOp s tid name)
  | checkin (s : St) (tid day date ts : Nat) (g : Bool) : Reachable s →
      day ∈ ([1, 2, 3] : List Nat) → freshCheckin s date ts →
      Reachable (cb_day s tid day date ts g).1
  | undoStep (s : St) (tid date : Nat) : Reachable s → currentDate s date →
      Reachable (undoOp s tid date).1

/-- SELECT xp FROM xp WHERE telegram_id, defaulting to 0 for an absent row
(get_or_create_xp reports 0 for a missing member). -/
def tableXp (t : List XpRow) (tid : Nat) : Nat :=
  match t.find? (fun r => r.telegram_id == tid) with
  | some r => r.xp
  | none => 0

/-- Current xp total of a member in the store. -/
def xpOf (s : St) (tid : Nat) : Nat := tableXp s.xp tid

/-- Names of the recurring jobs installed in the job queue: per-member
reminder jobs f"rem-{telegram_id}" plus the fixed broadcast jobs; the format
strings are pairwise distinct, so the name space is embedded as an inductive
type. -/
inductive JobName where
  | rem (telegram_id : Nat)
  | grpMon9am
  | grpSat9am
  | grpSunVerse
  | dmTue
  | dmThu
  | weeklyRollover
deriving DecidableEq, Repr

/-- A recurring run_daily trigger in the job queue registry. -/
structure Job where
  name : JobName
  dayOfWeek : Nat
  hour : Nat
  minute : Nat
  chat_id : Nat
deriving DecidableEq, Repr

/-- schedule_user_reminders (lines 1375-1391): remove every job named
rem-telegram_id, then install one run_daily trigger per requested weekday at
the requested wall-clock time. -/
def schedule_user_reminders (jobs : List Job) (tid : Nat) (days : List Nat)
    (hour minute : Nat) : List Job :=
  (jobs.filter fun j => decide (j.name ≠ JobName.rem tid)) ++
    days.map (fun wd => ⟨JobName.rem tid, wd, hour, minute, tid⟩)

/-- WEEKDAY_MAP (line 390), keys as character lists. -/
def WEEKDAY_MAP : List (List Char × Nat) :=
  [("MON".toList, 0), ("TUE".toList, 1), ("WED".toList, 2), ("THU".toList, 3),
   ("FRI".toList, 4), ("SAT".toList, 5), ("SUN".toList, 6)]

/-- REV_WEEKDAY_MAP (line 391). -/
def REV_WEEKDAY_MAP : List (Nat × List Char) := WEEKDAY_MAP.map (fun p => (p.2, p.1))

/-- Python s.split(",") on character lists. -/
def splitComma : List Char → List (List Char)
  | [] => [[]]
  | c :: rest =>
    if c = ',' then [] :: splitComma rest
    else
      match splitComma rest with
      | [] => [[c]]
      | p :: ps => (c :: p) :: ps

/-- Python ",".join on character lists. -/
def joinComma : List (List Char) → List Char
  | [] => []
  | [p] => p
  | p :: ps => p ++ ',' :: joinComma ps

/-- Python str.strip(). -/
def pyStrip (s : List Char) : List Char :=
  ((s.dropWhile Char.isWhitespace).reverse.dropWhile Char.isWhitespace).reverse

/-- Python str.upper() restricted to the ASCII handling of Char.toUpper. -/
def pyUpper (s : List Char) : List Char := s.map Char.toUpper

/-- parse_days_csv (lines 725-731): split on commas, strip and uppercase each
part, keep the WEEKDAY_MAP hits, and return sorted(set(out)). -/
def parse_days_csv (s : List Char) : List Nat :=
  (((splitComma s).filterMap
      (fun part => WEEKDAY_MAP.lookup (pyUpper (pyStrip part)))).dedup).insertionSort
    (· ≤ ·)

/-- REV_WEEKDAY_MAP lookup as used on valid day indices (lines 733-734). -/
def revName (d : Nat) : List Char := (REV_WEEKDAY_MAP.lookup d).getD []

/-- normalize_days_to_csv (lines 733-734): join the names of the sorted days
with commas. -/
def normalize_days_to_csv (days : List Nat) : List Char :=
  joinComma ((days.insertionSort (· ≤ ·)).map revName)

/-! ### Basic list facts about the query helpers -/

theorem le_listMax : ∀ {l : List Nat} {a : Nat}, a ∈ l → a ≤ listMax l := by
  intro l
  induction l with
  | nil => intro a h; cases h
  | cons b bs ih =>
    intro a h
    show a ≤ Nat.max b (listMax bs)
    rcases List.mem_cons.mp h with h | h
    · subst h; exact Nat.le_max_left _ _
    · exact Nat.le_trans (ih h) (Nat.le_max_right _ _)

theorem listMax_mem : ∀ {l : List Nat}, l ≠ [] → listMax l ∈ l := by
  intro l
  induction l with
  | nil => intro h; exact absurd rfl h
  | cons b bs ih =>
    intro _
    show Nat.max b (listMax bs) ∈ b :: bs
    rcases Nat.le_total (listMax bs) b with h | h
    · have hb : Nat.max b (listMax bs) = b := Nat.max_eq_left h
      rw [hb]; exact List.mem_cons_self _ _
    · have hb : Nat.max b (listMax bs) = listMax bs := Nat.max_eq_right h
      rw [hb]
      cases bs with
      | nil =>
        have hb0 : b = 0 := by simpa [listMax] using h
        simp [listMax, hb0]
      | cons c cs => exact List.mem_cons_of_mem _ (ih (by simp))

theorem listMax_congr {l1 l2 : List Nat} (h : ∀ a, a ∈ l1 ↔ a ∈ l2) :
    listMax l1 = listMax l2 := by
  cases l1 with
  | nil =>
    cases l2 with
    | nil => rfl
    | cons b bs => exact absurd ((h b).mpr (List.mem_cons_self _ _)) (List.not_mem_nil b)
  | cons a as =>
    cases l2 with
    | nil => exact absurd ((h a).mp (List.mem_cons_self _ _)) (List.not_mem_nil a)
    | cons b bs =>
      apply Nat.le_antisymm
      · exact le_listMax ((h _).mp (listMax_mem (by simp)))
      · exact le_listMax ((h _).mpr (listMax_mem (by simp)))

theorem lastByTs_eq_none : ∀ {l : List Rec}, lastByTs l = none ↔ l = [] := by
  intro l
  cases l with
  | nil => simp [lastByTs]
  | cons r rs =>
    cases hm : lastByTs rs with
    | none => simp [lastByTs, hm]
    | some m =>
      simp only [lastByTs, hm]
      constructor
      · intro h; split at h <;> simp at h
      · intro h; cases h

theorem lastByTs_mem : ∀ {l : List Rec} {r : Rec}, lastByTs l = some r → r ∈ l := by
  intro l
  induction l with
  | nil => intro r h; simp [lastByTs] at h
  | cons a as ih =>
    intro r h
    cases hm : lastByTs as with
    | none =>
      simp only [lastByTs, hm] at h
      cases h
      exact List.mem_cons_self _ _
    | some m =>
      simp only [lastByTs, hm] at h
      split at h
      · cases h; exact List.mem_cons_self _ _
      · cases h; exact List.mem_cons_of_mem _ (ih hm)

theorem lastByTs_le : ∀ {l : List Rec} {r : Rec}, lastByTs l = some r →
    ∀ q ∈ l, q.ts ≤ r.ts := by
  intro l
  induction l with
  | nil => intro r h; simp [lastByTs] at h
  | cons a as ih =>
    intro r h q hq
    cases hm : lastByTs as with
    | none =>
      simp only [lastByTs, hm] at h
      cases h
      have has : as = [] := lastByTs_eq_none.mp hm
      subst has
      rcases List.mem_cons.mp hq with hq | hq
      · subst hq; exact Nat.le_refl _
      · cases hq
    | some m =>
      simp only [lastByTs, hm] at h
      rcases List.mem_cons.mp hq with hq | hq
      · subst hq
        split at h
        · cases h; exact Nat.le_refl _
        · rename_i hle
          cases h
          omega
      · have hqm : q.ts ≤ m.ts := ih hm q hq
        split at h
        · rename_i hle
          cases h
          omega
        · cases h
          exact hqm

theorem mem_weekRecs {cs : List Rec} {tid wk : Nat} {r : Rec} :
    r ∈ weekRecs cs tid wk ↔ r ∈ cs ∧ r.telegram_id = tid ∧ r.week_start = wk := by
  simp [weekRecs, List.mem_filter]

theorem mem_daysOf {cs : List Rec} {tid wk d : Nat} :
    d ∈ daysOf cs tid wk ↔
      ∃ r ∈ cs, r.telegram_id = tid ∧ r.week_start = wk ∧ r.day = d := by
  constructor
  · intro h
    rw [daysOf, List.mem_dedup] at h
    obtain ⟨r, hr, hd⟩ := List.mem_map.mp h
    obtain ⟨h1, h2, h3⟩ := mem_weekRecs.mp hr
    exact ⟨r, h1, h2, h3, hd⟩
  · rintro ⟨r, h1, h2, h3, h4⟩
    rw [daysOf, List.mem_dedup]
    exact List.mem_map.mpr ⟨r, mem_weekRecs.mpr ⟨h1, h2, h3⟩, h4⟩

/-! ### Frame lemmas: which tables each helper touches -/

theorem registerOp_checkins (s : St) (tid : Nat) (name : String) :
    (registerOp s tid name).checkins = s.checkins := by
  unfold registerOp; split <;> rfl

theorem registerOp_nextId (s : St) (tid : Nat) (name : String) :
    (registerOp s tid name).nextId = s.nextId := by
  unfold registerOp; split <;> rfl

theorem award_badge_checkins (s : St) (tid : Nat) (n c : String) (wk : Option Nat) (ts : Nat) :
    ((award_badge s tid n c wk ts).2).checkins = s.checkins := by
  unfold award_badge; split <;> rfl

theorem award_badge_nextId (s : St) (tid : Nat) (n c : String) (wk : Option Nat) (ts : Nat) :
    ((award_badge s tid n c wk ts).2).nextId = s.nextId := by
  unfold award_badge; split <;> rfl

theorem award_badge_users (s : St) (tid : Nat) (n c : String) (wk : Option Nat) (ts : Nat) :
    ((award_badge s tid n c wk ts).2).users = s.users := by
  unfold award_badge; split <;> rfl

theorem maybe_award_checkins (s : St) (tid : Nat) (n : String) (wk : Nat)
    (dd : List Nat) (k : Nat) (z m : Bool) (ts : Nat) :
    ((maybe_award_condition_badges s tid n wk dd k z m ts).2).checkins = s.checkins := by
  unfold maybe_award_condition_badges
  dsimp only
  repeat' split <;> simp [award_badge_checkins]

theorem maybe_award_nextId (s : St) (tid : Nat) (n : String) (wk : Nat)
    (dd : List Nat) (k : Nat) (z m : Bool) (ts : Nat) :
    ((maybe_award_condition_badges s tid n wk dd k z m ts).2).nextId = s.nextId := by
  unfold maybe_award_condition_badges
  dsimp only
  repeat' split <;> simp [award_badge_nextId]

theorem maybe_award_users (s : St) (tid : Nat) (n : String) (wk : Nat)
    (dd : List Nat) (k : Nat) (z m : Bool) (ts : Nat) :
    ((maybe_award_condition_badges s tid n wk dd k z m ts).2).users = s.users := by
  unfold maybe_award_condition_badges
  dsimp only
  repeat' split <;> simp [award_badge_users]

/-! ### Tracking the xp column through the helpers -/

theorem tableXp_set_xp_self (t : List XpRow) (tid : Nat) (n : String) (x l : Nat)
    (b : Option String) : tableXp (set_xp t tid n x l b) tid = x := by
  unfold tableXp set_xp
  rw [List.find?_cons_of_pos _ (by simp)]

theorem get_or_create_val (t : List XpRow) (tid : Nat) (n : String) :
    (get_or_create_xp t tid n).1.1 = tableXp t tid := by
  cases h : t.find? (fun r => r.telegram_id == tid) with
  | none => simp [get_or_create_xp, tableXp, h]
  | some r => simp [get_or_create_xp, tableXp, h]

theorem tableXp_get_or_create (t : List XpRow) (tid : Nat) (n : String) :
    tableXp (get_or_create_xp t tid n).2 tid = tableXp t tid := by
  cases h : t.find? (fun r => r.telegram_id == tid) with
  | none =>
    unfold get_or_create_xp
    rw [h]
    unfold tableXp
    rw [List.find?_cons_of_pos _ (by simp), h]
  | some r => simp [get_or_create_xp, h]

theorem award_badge_xp_amount (s : St) (tid : Nat) (n c : String) (wk : Option Nat)
    (ts : Nat) :
    tableXp ((award_badge s tid n c wk ts).2).xp tid = tableXp s.xp tid := by
  unfold award_badge
  split
  · rfl
  · dsimp only
    rw [tableXp_set_xp_self, get_or_create_val]

theorem maybe_award_xp_amount (s : St) (tid : Nat) (n : String) (wk : Nat)
    (dd : List Nat) (k : Nat) (z m : Bool) (ts : Nat) :
    tableXp ((maybe_award_condition_badges s tid n wk dd k z m ts).2).xp tid =
      tableXp s.xp tid := by
  unfold maybe_award_condition_badges
  dsimp only
  repeat' split <;> simp [award_badge_xp_amount]

/-! ### Shape of the insert phase and of the guard paths -/

theorem cb_day_post_components (s : St) (tid : Nat) (name : String)
    (day date ts : Nat) (dd : List Nat) (g : Bool) :
    ((cb_day_post s tid name day date ts dd g).1.checkins =
       if decide (¬ ∃ r ∈ s.checkins, r.telegram_id = tid ∧ r.local_date = date)
       then mkRec s.nextId tid name (weekStart date) day ts date :: s.checkins
       else s.checkins) ∧
    ((cb_day_post s tid name day date ts dd g).1.nextId =
       if decide (¬ ∃ r ∈ s.checkins, r.telegram_id = tid ∧ r.local_date = date)
       then s.nextId + 1 else s.nextId) ∧
    ((cb_day_post s tid name day date ts dd g).1.users = s.users) ∧
    ((cb_day_post s tid name day date ts dd g).2 =
       if decide (¬ ∃ r ∈ s.checkins, r.telegram_id = tid ∧ r.local_date = date)
       then CbResult.logged day else CbResult.alreadyLogged day) := by
  unfold cb_day_post
  dsimp only
  refine ⟨?_, ?_, ?_, ?_⟩ <;>
    split <;>
      simp [maybe_award_checkins, maybe_award_nextId, maybe_award_users,
        apply_ite St.checkins, apply_ite St.nextId, apply_ite St.users]

theorem cb_day_post_insert (s : St) (tid : Nat) (name : String) (day date ts : Nat)
    (dd : List Nat) (g : Bool)
    (h : ¬ ∃ r ∈ s.checkins, r.telegram_id = tid ∧ r.local_date = date) :
    (cb_day_post s tid name day date ts dd g).1.checkins =
      mkRec s.nextId tid name (weekStart date) day ts date :: s.checkins ∧
    (cb_day_post s tid name day date ts dd g).1.nextId = s.nextId + 1 ∧
    (cb_day_post s tid name day date ts dd g).1.users = s.users ∧
    (cb_day_post s tid name day date ts dd g).2 = CbResult.logged day := by
  have hc := cb_day_post_components s tid name day date ts dd g
  rw [decide_eq_true h] at hc
  simpa using hc

theorem cb_day_post_dup (s : St) (tid : Nat) (name : String) (day date ts : Nat)
    (dd : List Nat) (g : Bool)
    (h : ∃ r ∈ s.checkins, r.telegram_id = tid ∧ r.local_date = date) :
    (cb_day_post s tid name day date ts dd g).1.checkins = s.checkins ∧
    (cb_day_post s tid name day date ts dd g).1.nextId = s.nextId ∧
    (cb_day_post s tid name day date ts dd g).1.users = s.users ∧
    (cb_day_post s tid name day date ts dd g).2 = CbResult.alreadyLogged day := by
  have hc := cb_day_post_components s tid name day date ts dd g
  rw [decide_eq_false (not_not_intro h)] at hc
  simpa using hc

theorem cb_day_notRegistered (s : St) (tid day date ts : Nat) (g : Bool)
    (h : s.users.lookup tid = none) :
    cb_day s tid day date ts g = (s, CbResult.notRegistered) := by
  simp [cb_day, h]

theorem cb_day_alreadyToday (s : St) (tid day date ts : Nat) (g : Bool)
    (name : String) (hn : s.users.lookup tid = some name)
    (h : ∃ r ∈ s.checkins, r.telegram_id = tid ∧ r.local_date = date) :
    cb_day s tid day date ts g = (s, CbResult.alreadyToday date) := by
  simp [cb_day, hn, h]

theorem cb_day_outOfOrder (s : St) (tid day date ts : Nat) (g : Bool)
    (name : String) (hn : s.users.lookup tid = some name)
    (h : ¬ ∃ r ∈ s.checkins, r.telegram_id = tid ∧ r.local_date = date)
    (ho : day ≠ next_needed s.checkins tid (weekStart date)) :
    cb_day s tid day date ts g =
      (s, CbResult.outOfOrder (next_needed s.checkins tid (weekStart date))) := by
  simp [cb_day, hn, h, ho]

theorem cb_day_accept (s : St) (tid day date ts : Nat) (g : Bool)
    (name : String) (hn : s.users.lookup tid = some name)
    (h : ¬ ∃ r ∈ s.checkins, r.telegram_id = tid ∧ r.local_date = date)
    (ho : day = next_needed s.checkins tid (weekStart date)) :
    cb_day s tid day date ts g =
      cb_day_post s tid name day date ts
        ((daysOf s.checkins tid (weekStart date)).insertionSort (· ≤ ·)) g := by
  simp [cb_day, hn, h, ho]

/-! ### The ledger invariant carried by every reachable store -/

/-- Invariant of the checkins table together with the autoincrement counter:
ids are fresh and pairwise distinct, the daily cap holds, every stored
week_start is derived from the local_date, days come from the keyboard,
minutes are the fixed default, timestamps are pairwise distinct, grow with the
calendar date, and within one member-week the day order agrees with the
timestamp order, and the claimed days of a member-week are downward closed
above 1. -/
structure InvL (cs : List Rec) (nid : Nat) : Prop where
  ids_lt : ∀ r ∈ cs, r.id < nid
  ids_nodup : (cs.map (fun r => r.id)).Nodup
  daily : ∀ r1 ∈ cs, ∀ r2 ∈ cs, r1.telegram_id = r2.telegram_id →
    r1.local_date = r2.local_date → r1 = r2
  week_eq : ∀ r ∈ cs, r.week_start = weekStart r.local_date
  day_mem : ∀ r ∈ cs, r.day ∈ ([1, 2, 3] : List Nat)
  minutes_eq : ∀ r ∈ cs, r.minutes = DEFAULT_MINUTES
  ts_uniq : ∀ r1 ∈ cs, ∀ r2 ∈ cs, r1.ts = r2.ts → r1 = r2
  ts_date : ∀ r1 ∈ cs, ∀ r2 ∈ cs, r1.local_date < r2.local_date → r1.ts < r2.ts
  ts_day : ∀ r1 ∈ cs, ∀ r2 ∈ cs, r1.telegram_id = r2.telegram_id →
    r1.week_start = r2.week_start → (r1.day < r2.day ↔ r1.ts < r2.ts)
  dayClosed : ∀ r ∈ cs, ∀ e, 1 ≤ e → e ≤ r.day →
    ∃ q ∈ cs, q.telegram_id = r.telegram_id ∧ q.week_start = r.week_start ∧ q.day = e

/-- The store-level invariant. -/
def StInv (s : St) : Prop := InvL s.checkins s.nextId

theorem InvL.ids_uniq {cs : List Rec} {nid : Nat} (h : InvL cs nid) :
    ∀ r1 ∈ cs, ∀ r2 ∈ cs, r1.id = r2.id → r1 = r2 :=
  fun _ h1 _ h2 he => List.inj_on_of_nodup_map h.ids_nodup h1 h2 he

theorem InvL.slot_uniq {cs : List Rec} {nid : Nat} (h : InvL cs nid) :
    ∀ r1 ∈ cs, ∀ r2 ∈ cs, r1.telegram_id = r2.telegram_id →
      r1.week_start = r2.week_start → r1.day = r2.day → r1 = r2 := by
  intro r1 h1 r2 h2 ht hw hd
  apply h.ts_uniq r1 h1 r2 h2
  have h12 := h.ts_day r1 h1 r2 h2 ht hw
  have h21 := h.ts_day r2 h2 r1 h1 ht.symm hw.symm
  have hn1 : ¬ r1.ts < r2.ts := fun hl => by
    have := h12.mpr hl
    omega
  have hn2 : ¬ r2.ts < r1.ts := fun hl => by
    have := h21.mpr hl
    omega
  omega

/-- Every already-claimed day of the member-week is strictly below the
next required slot. -/
theorem day_lt_next_needed {cs : List Rec} {nid tid wk : Nat}
    (hn : InvL cs nid) (r : Rec) (hr : r ∈ cs) (ht : r.telegram_id = tid)
    (hw : r.week_start = wk) : r.day < next_needed cs tid wk := by
  have hmem : r.day ∈ daysOf cs tid wk := mem_daysOf.mpr ⟨r, hr, ht, hw, rfl⟩
  have hmem2 : r.day ∈ (daysOf cs tid wk).insertionSort (· ≤ ·) :=
    (List.mem_insertionSort _).mpr hmem
  have hne : (daysOf cs tid wk).insertionSort (· ≤ ·) ≠ [] := by
    intro h0
    rw [h0] at hmem2
    exact List.not_mem_nil _ hmem2
  have hle : r.day ≤ listMax ((daysOf cs tid wk).insertionSort (· ≤ ·)) :=
    le_listMax hmem2
  unfold next_needed
  rw [if_neg hne]
  omega

theorem invL_insert (cs : List Rec) (nid tid day date ts : Nat) (name : String)
    (h : InvL cs nid)
    (hday : day ∈ ([1, 2, 3] : List Nat))
    (hfresh : ∀ r ∈ cs, r.ts < ts ∧ r.local_date ≤ date)
    (hdup : ¬ ∃ r ∈ cs, r.telegram_id = tid ∧ r.local_date = date)
    (horder : day = next_needed cs tid (weekStart date)) :
    InvL (mkRec nid tid name (weekStart date) day ts date :: cs) (nid + 1) := by
  set n := mkRec nid tid name (weekStart date) day ts date with hn
  have hlt : ∀ r ∈ cs, r.telegram_id = tid → r.week_start = weekStart date →
      r.day < day := by
    intro r hr ht hw
    rw [horder]
    exact day_lt_next_needed h r hr ht hw
  constructor
  · intro r hr
    rcases List.mem_cons.mp hr with hr | hr
    · subst hr; simp [hn, mkRec]
    · exact Nat.lt_trans (h.ids_lt r hr) (Nat.lt_succ_self _)
  · rw [List.map_cons]
    refine List.Nodup.cons ?_ h.ids_nodup
    intro hmem
    obtain ⟨r, hr, hid⟩ := List.mem_map.mp hmem
    have := h.ids_lt r hr
    simp [hn, mkRec] at hid
    omega
  · intro r1 h1 r2 h2 ht hd
    rcases List.mem_cons.mp h1 with h1 | h1 <;> rcases List.mem_cons.mp h2 with h2 | h2
    · rw [h1, h2]
    · exfalso
      subst h1
      exact hdup ⟨r2, h2, ht.symm, hd.symm⟩
    · exfalso
      subst h2
      exact hdup ⟨r1, h1, ht, hd⟩
    · exact h.daily r1 h1 r2 h2 ht hd
  · intro r hr
    rcases List.mem_cons.mp hr with hr | hr
    · subst hr; rfl
    · exact h.week_eq r hr
  · intro r hr
    rcases List.mem_cons.mp hr with hr | hr
    · subst hr; exact hday
    · exact h.day_mem r hr
  · intro r hr
    rcases List.mem_cons.mp hr with hr | hr
    · subst hr; rfl
    · exact h.minutes_eq r hr
  · intro r1 h1 r2 h2 he
    rcases List.mem_cons.mp h1 with h1 | h1 <;> rcases List.mem_cons.mp h2 with h2 | h2
    · rw [h1, h2]
    · exfalso
      subst h1
      have := (hfresh r2 h2).1
      simp [hn, mkRec] at he
      omega
    · exfalso
      subst h2
      have := (hfresh r1 h1).1
      simp [hn, mkRec] at he
      omega
    · exact h.ts_uniq r1 h1 r2 h2 he
  · intro r1 h1 r2 h2 hd
    rcases List.mem_cons.mp h1 with h1 | h1 <;> rcases List.mem_cons.mp h2 with h2 | h2
    · exfalso; rw [h1, h2] at hd; omega
    · exfalso
      subst h1
      have := (hfresh r2 h2).2
      simp [hn, mkRec] at hd
      omega
    · subst h2
      exact (hfresh r1 h1).1
    · exact h.ts_date r1 h1 r2 h2 hd
  · intro r1 h1 r2 h2 ht hw
    rcases List.mem_cons.mp h1 with h1 | h1 <;> rcases List.mem_cons.mp h2 with h2 | h2
    · rw [h1, h2]; omega
    · subst h1
      have hlt2 := hlt r2 h2 ht.symm hw.symm
      have hts := (hfresh r2 h2).1
      constructor
      · intro hc; exfalso; simp [hn, mkRec] at hc; omega
      · intro hc; exfalso; simp [hn, mkRec] at hc; omega
    · subst h2
      have hlt1 := hlt r1 h1 ht hw
      have hts := (hfresh r1 h1).1
      constructor
      · intro _; simpa [hn, mkRec] using hts
      · intro _; simpa [hn, mkRec] using hlt1
    · exact h.ts_day r1 h1 r2 h2 ht hw
  · intro r hr e h1e hed
    rcases List.mem_cons.mp hr with hr | hr
    · subst hr
      by_cases hed2 : e = n.day
      · exact ⟨n, List.mem_cons_self _ _, rfl, rfl, hed2.symm⟩
      · have helt : e < day := by
          have : n.day = day := rfl
          omega
        have hddne : (daysOf cs tid (weekStart date)).insertionSort (· ≤ ·) ≠ [] := by
          intro h0
          rw [horder] at helt
          unfold next_needed at helt
          rw [if_pos h0] at helt
          omega
        have hmax : listMax ((daysOf cs tid (weekStart date)).insertionSort (· ≤ ·)) ∈
            (daysOf cs tid (weekStart date)).insertionSort (· ≤ ·) := listMax_mem hddne
        have hmax2 : listMax ((daysOf cs tid (weekStart date)).insertionSort (· ≤ ·)) ∈
            daysOf cs tid (weekStart date) := (List.mem_insertionSort _).mp hmax
        obtain ⟨rM, hrM, htM, hwM, hdM⟩ := mem_daysOf.mp hmax2
        have hele : e ≤ rM.day := by
          rw [horder] at helt
          unfold next_needed at helt
          rw [if_neg hddne] at helt
          omega
        obtain ⟨q, hq, hqt, hqw, hqd⟩ := h.dayClosed rM hrM e h1e hele
        refine ⟨q, List.mem_cons_of_mem _ hq, ?_, ?_, hqd⟩
        · rw [hqt, htM]; rfl
        · rw [hqw, hwM]; rfl
    · obtain ⟨q, hq, hqt, hqw, hqd⟩ := h.dayClosed r hr e h1e hed
      exact ⟨q, List.mem_cons_of_mem _ hq, hqt, hqw, hqd⟩

theorem invL_undo (s : St) (tid date : Nat) (h : InvL s.checkins s.nextId) :
    InvL (undoOp s tid date).1.checkins (undoOp s tid date).1.nextId := by
  unfold undoOp
  dsimp only
  cases hm : lastByTs (weekRecs s.checkins tid (weekStart date)) with
  | none => exact h
  | some rstar =>
    dsimp only
    obtain ⟨hrcs, hrt, hrw⟩ := mem_weekRecs.mp (lastByTs_mem hm)
    have hdaymax : ∀ q ∈ s.checkins, q.telegram_id = tid →
        q.week_start = weekStart date → q.day ≤ rstar.day := by
      intro q hq ht hw
      by_contra hlt
      push_neg at hlt
      have h1 : rstar.ts < q.ts :=
        (h.ts_day rstar hrcs q hq (hrt.trans ht.symm) (hrw.trans hw.symm)).mp hlt
      have h2 : q.ts ≤ rstar.ts := lastByTs_le hm q (mem_weekRecs.mpr ⟨hq, ht, hw⟩)
      omega
    have hsub : ∀ q ∈ s.checkins.filter (fun q => decide (q.id ≠ rstar.id)),
        q ∈ s.checkins := fun q hq => List.mem_of_mem_filter hq
    constructor
    · intro r hr; exact h.ids_lt r (hsub r hr)
    · exact List.Nodup.sublist (List.Sublist.map _ (List.filter_sublist _)) h.ids_nodup
    · intro r1 h1 r2 h2 ht hd; exact h.daily r1 (hsub r1 h1) r2 (hsub r2 h2) ht hd
    · intro r hr; exact h.week_eq r (hsub r hr)
    · intro r hr; exact h.day_mem r (hsub r hr)
    · intro r hr; exact h.minutes_eq r (hsub r hr)
    · intro r1 h1 r2 h2 he; exact h.ts_uniq r1 (hsub r1 h1) r2 (hsub r2 h2) he
    · intro r1 h1 r2 h2 hd; exact h.ts_date r1 (hsub r1 h1) r2 (hsub r2 h2) hd
    · intro r1 h1 r2 h2 ht hw; exact h.ts_day r1 (hsub r1 h1) r2 (hsub r2 h2) ht hw
    · intro r hr e h1e hed
      have hrmem : r ∈ s.checkins := hsub r hr
      obtain ⟨q, hq, hqt, hqw, hqd⟩ := h.dayClosed r hrmem e h1e hed
      refine ⟨q, ?_, hqt, hqw, hqd⟩
      rw [List.mem_filter]
      refine ⟨hq, ?_⟩
      simp only [decide_eq_true_eq]
      intro hid
      have hqr : q = rstar := h.ids_uniq q hq rstar hrcs hid
      have hrid : r.id ≠ rstar.id := by
        have := List.mem_filter.mp hr
        simpa using this.2
      have hrt2 : r.telegram_id = tid := by rw [← hqt, hqr, hrt]
      have hrw2 : r.week_start = weekStart date := by rw [← hqw, hqr, hrw]
      have hrle : r.day ≤ rstar.day := hdaymax r hrmem hrt2 hrw2
      have hre : rstar.day = e := by rw [← hqd, hqr]
      have hrde : r.day = rstar.day := by omega
      have : r = rstar := h.slot_uniq r hrmem rstar hrcs
        (by rw [hrt2, hrt]) (by rw [hrw2, hrw]) hrde
      exact hrid (by rw [this])

theorem registerOp_users_frame (s : St) (tid : Nat) (name : String) :
    StInv s → StInv (registerOp s tid name) := by
  intro h
  unfold StInv
  rw [registerOp_checkins, registerOp_nextId]
  exact h

theorem inv_cb_day (s : St) (tid day date ts : Nat) (g : Bool) (h : StInv s)
    (hday : day ∈ ([1, 2, 3] : List Nat)) (hfresh : freshCheckin s date ts) :
    StInv (cb_day s tid day date ts g).1 := by
  cases hu : s.users.lookup tid with
  | none =>
    rw [cb_day_notRegistered s tid day date ts g hu]
    exact h
  | some name =>
    by_cases hdup : ∃ r ∈ s.checkins, r.telegram_id = tid ∧ r.local_date = date
    · rw [cb_day_alreadyToday s tid day date ts g name hu hdup]
      exact h
    · by_cases ho : day = next_needed s.checkins tid (weekStart date)
      · rw [cb_day_accept s tid day date ts g name hu hdup ho]
        unfold StInv
        rw [(cb_day_post_insert s tid name day date ts _ g hdup).1,
          (cb_day_post_insert s tid name day date ts _ g hdup).2.1]
        exact invL_insert s.checkins s.nextId tid day date ts name h hday hfresh hdup ho
      · rw [cb_day_outOfOrder s tid day date ts g name hu hdup ho]
        exact h

theorem reachable_inv {s : St} (h : Reachable s) : StInv s := by
  induction h with
  | init =>
    constructor <;> simp [St.initial]
  | reg s tid name _ ih => exact registerOp_users_frame s tid name ih
  | checkin s tid day date ts g _ hday hfresh ih =>
    exact inv_cb_day s tid day date ts g ih hday hfresh
  | undoStep s tid date _ hdate ih => exact invL_undo s tid date ih

/-! ### The claimed-day sets of an invariant-carrying ledger -/

theorem listMax_eq_of {l : List Nat} {d : Nat} (hm : d ∈ l)
    (hub : ∀ e ∈ l, e ≤ d) : listMax l = d := by
  have hne : l ≠ [] := by intro h; subst h; cases hm
  exact Nat.le_antisymm (hub _ (listMax_mem hne)) (le_listMax hm)

theorem daysOf_cases {cs : List Rec} {nid : Nat} (h : InvL cs nid) (tid wk : Nat) :
    (daysOf cs tid wk).toFinset = (∅ : Finset Nat) ∨
    (daysOf cs tid wk).toFinset = {1} ∨
    (daysOf cs tid wk).toFinset = {1, 2} ∨
    (daysOf cs tid wk).toFinset = {1, 2, 3} := by
  have hmem3 : ∀ d ∈ daysOf cs tid wk, d ∈ ([1, 2, 3] : List Nat) := by
    intro d hd
    obtain ⟨r, hr, ht, hw2, hdd⟩ := mem_daysOf.mp hd
    subst hdd
    exact h.day_mem r hr
  have hclosed : ∀ d ∈ daysOf cs tid wk, ∀ e, 1 ≤ e → e ≤ d →
      e ∈ daysOf cs tid wk := by
    intro d hd e h1 he
    obtain ⟨r, hr, ht, hw2, hdd⟩ := mem_daysOf.mp hd
    subst hdd
    obtain ⟨q, hq, hqt, hqw, hqd⟩ := h.dayClosed r hr e h1 he
    exact mem_daysOf.mpr ⟨q, hq, by rw [hqt, ht], by rw [hqw, hw2], hqd⟩
  by_cases h3 : 3 ∈ daysOf cs tid wk
  · right; right; right
    ext d
    simp only [List.mem_toFinset, Finset.mem_insert, Finset.mem_singleton]
    constructor
    · intro hd
      simpa using hmem3 d hd
    · intro hd
      rcases hd with hd | hd | hd <;> subst hd
      · exact hclosed 3 h3 1 (by omega) (by omega)
      · exact hclosed 3 h3 2 (by omega) (by omega)
      · exact h3
  · by_cases h2 : 2 ∈ daysOf cs tid wk
    · right; right; left
      ext d
      simp only [List.mem_toFinset, Finset.mem_insert, Finset.mem_singleton]
      constructor
      · intro hd
        have hm := hmem3 d hd
        simp at hm
        rcases hm with hm | hm | hm
        · left; exact hm
        · right; exact hm
        · exfalso; subst hm; exact h3 hd
      · intro hd
        rcases hd with hd | hd <;> subst hd
        · exact hclosed 2 h2 1 (by omega) (by omega)
        · exact h2
    · by_cases h1 : 1 ∈ daysOf cs tid wk
      · right; left
        ext d
        simp only [List.mem_toFinset, Finset.mem_singleton]
        constructor
        · intro hd
          have hm := hmem3 d hd
          simp at hm
          rcases hm with hm | hm | hm
          · exact hm
          · exfalso; subst hm; exact h2 hd
          · exfalso; subst hm; exact h3 hd
        · intro hd; subst hd; exact h1
      · left
        ext d
        simp only [List.mem_toFinset, Finset.not_mem_empty, iff_false]
        intro hd
        have hm := hmem3 d hd
        simp at hm
        rcases hm with hm | hm | hm <;> subst hm
        · exact h1 hd
        · exact h2 hd
        · exact h3 hd

theorem next_needed_eq_length {cs : List Rec} {nid : Nat} (h : InvL cs nid)
    (tid wk : Nat) :
    next_needed cs tid wk = (daysOf cs tid wk).length + 1 := by
  have hnd : (daysOf cs tid wk).Nodup := List.nodup_dedup _
  have hcard : (daysOf cs tid wk).toFinset.card = (daysOf cs tid wk).length :=
    List.toFinset_card_of_nodup hnd
  have hmemiff : ∀ a : Nat, a ∈ (daysOf cs tid wk).insertionSort (· ≤ ·) ↔
      a ∈ daysOf cs tid wk := fun a => List.mem_insertionSort _
  have hsne : ∀ a : Nat, a ∈ daysOf cs tid wk →
      (daysOf cs tid wk).insertionSort (· ≤ ·) ≠ [] := by
    intro a ha h0
    have := (hmemiff a).mpr ha
    rw [h0] at this
    exact List.not_mem_nil _ this
  rcases daysOf_cases h tid wk with hc | hc | hc | hc
  · have hnil : daysOf cs tid wk = [] := by
      rw [List.eq_nil_iff_forall_not_mem]
      intro a ha
      have := List.mem_toFinset.mpr ha
      rw [hc] at this
      exact Finset.not_mem_empty a this
    unfold next_needed
    rw [if_pos (by rw [hnil]; rfl), hnil]
    rfl
  · have hm1 : 1 ∈ daysOf cs tid wk := List.mem_toFinset.mp (by rw [hc]; decide)
    have hub : ∀ e ∈ daysOf cs tid wk, e ≤ 1 := by
      intro e he
      have := List.mem_toFinset.mpr he
      rw [hc] at this
      simp at this
      omega
    have hmax : listMax ((daysOf cs tid wk).insertionSort (· ≤ ·)) = 1 :=
      listMax_eq_of ((hmemiff 1).mpr hm1) (fun e he => hub e ((hmemiff e).mp he))
    have hlen : (daysOf cs tid wk).length = 1 := by rw [← hcard, hc]; rfl
    unfold next_needed
    rw [if_neg (hsne 1 hm1), hmax, hlen]
  · have hm2 : 2 ∈ daysOf cs tid wk := List.mem_toFinset.mp (by rw [hc]; decide)
    have hub : ∀ e ∈ daysOf cs tid wk, e ≤ 2 := by
      intro e he
      have := List.mem_toFinset.mpr he
      rw [hc] at this
      simp at this
      omega
    have hmax : listMax ((daysOf cs tid wk).insertionSort (· ≤ ·)) = 2 :=
      listMax_eq_of ((hmemiff 2).mpr hm2) (fun e he => hub e ((hmemiff e).mp he))
    have hlen : (daysOf cs tid wk).length = 2 := by rw [← hcard, hc]; rfl
    unfold next_needed
    rw [if_neg (hsne 2 hm2), hmax, hlen]
  · have hm3 : 3 ∈ daysOf cs tid wk := List.mem_toFinset.mp (by rw [hc]; decide)
    have hub : ∀ e ∈ daysOf cs tid wk, e ≤ 3 := by
      intro e he
      have := List.mem_toFinset.mpr he
      rw [hc] at this
      simp at this
      omega
    have hmax : listMax ((daysOf cs tid wk).insertionSort (· ≤ ·)) = 3 :=
      listMax_eq_of ((hmemiff 3).mpr hm3) (fun e he => hub e ((hmemiff e).mp he))
    have hlen : (daysOf cs tid wk).length = 3 := by rw [← hcard, hc]; rfl
    unfold next_needed
    rw [if_neg (hsne 3 hm3), hmax, hlen]

instance (s : St) (date ts : Nat) : Decidable (freshCheckin s date ts) := by
  unfold freshCheckin; infer_instance

instance (s : St) (date : Nat) : Decidable (currentDate s date) := by
  unfold currentDate; infer_instance

/-! ### Claim theorems -/

/-- C1: for every member and calendar local_date there is at most one
CheckinRecord per (member, local_date).  First conjunct: whenever a record of
the member exists for the local date of the request, cb_day replies
AlreadyCheckedInToday and leaves the whole store unchanged, inserting nothing.
Second conjunct: on every reachable store, two records of the same member with
the same local_date are the same row, so no sequence of check-in operations
produces two records for one member on one local date. -/
theorem claim_C1 :
    (∀ (s : St) (tid day date ts : Nat) (g : Bool) (name : String),
       s.users.lookup tid = some name →
       (∃ r ∈ s.checkins, r.telegram_id = tid ∧ r.local_date = date) →
       cb_day s tid day date ts g = (s, CbResult.alreadyToday date)) ∧
    (∀ s : St, Reachable s → ∀ r1 ∈ s.checkins, ∀ r2 ∈ s.checkins,
       r1.telegram_id = r2.telegram_id → r1.local_date = r2.local_date →
       r1 = r2) := by
  constructor
  · intro s tid day date ts g name hn h
    exact cb_day_alreadyToday s tid day date ts g name hn h
  · intro s hs
    exact (reachable_inv hs).daily

/-- Witness for C1: a member who logged on date 700 and retries the same day
is rejected with AlreadyCheckedInToday and the store is untouched. -/
theorem claim_C1_witness :
    cb_day (cb_day (registerOp St.initial 1 "Mike") 1 1 700 5 false).1
        1 2 700 6 false =
      ((cb_day (registerOp St.initial 1 "Mike") 1 1 700 5 false).1,
        CbResult.alreadyToday 700) :=
  claim_C1.1 _ 1 2 700 6 false "Mike" (by decide) (by decide)

/-- C2: on every reachable store the distinct-slot set of every member-week is
a prefix of the set containing 1, 2 and 3: it is one of the four sets listed,
never a gapped set such as the one with 1 and 3 but not 2.  Reachable stores
are closed under cb_day and undo, so both operations preserve the invariant. -/
theorem claim_C2 :
    ∀ s : St, Reachable s → ∀ tid wk : Nat,
      (daysOf s.checkins tid wk).toFinset = (∅ : Finset Nat) ∨
      (daysOf s.checkins tid wk).toFinset = {1} ∨
      (daysOf s.checkins tid wk).toFinset = {1, 2} ∨
      (daysOf s.checkins tid wk).toFinset = {1, 2, 3} :=
  fun _ hs tid wk => daysOf_cases (reachable_inv hs) tid wk

/-- Witness for C2 after two check-ins in week 700. -/
theorem claim_C2_witness :
    (daysOf (cb_day (cb_day (registerOp St.initial 1 "Mike") 1 1 700 5 false).1
        1 2 701 6 false).1.checkins 1 700).toFinset = (∅ : Finset Nat) ∨
    (daysOf (cb_day (cb_day (registerOp St.initial 1 "Mike") 1 1 700 5 false).1
        1 2 701 6 false).1.checkins 1 700).toFinset = {1} ∨
    (daysOf (cb_day (cb_day (registerOp St.initial 1 "Mike") 1 1 700 5 false).1
        1 2 701 6 false).1.checkins 1 700).toFinset = {1, 2} ∨
    (daysOf (cb_day (cb_day (registerOp St.initial 1 "Mike") 1 1 700 5 false).1
        1 2 701 6 false).1.checkins 1 700).toFinset = {1, 2, 3} :=
  claim_C2 _
    (Reachable.checkin _ 1 2 701 6 false
      (Reachable.checkin _ 1 1 700 5 false
        (Reachable.reg _ 1 "Mike" Reachable.init) (by decide) (by decide))
      (by decide) (by decide))
    1 700

/-- C3: past the daily guard, cb_day accepts the requested slot exactly when
it equals one plus the count of distinct slots already claimed this week (the
code computes max plus one, which agrees with the count form on every
reachable store); any other requested slot is rejected with OutOfOrderSlot
carrying that next slot and the store is left unchanged. -/
theorem claim_C3 :
    ∀ (s : St) (tid day date ts : Nat) (g : Bool) (name : String),
      Reachable s →
      s.users.lookup tid = some name →
      (¬ ∃ r ∈ s.checkins, r.telegram_id = tid ∧ r.local_date = date) →
      (next_needed s.checkins tid (weekStart date) =
        (daysOf s.checkins tid (weekStart date)).length + 1) ∧
      (day = (daysOf s.checkins tid (weekStart date)).length + 1 →
        (cb_day s tid day date ts g).2 = CbResult.logged day) ∧
      (day ≠ (daysOf s.checkins tid (weekStart date)).length + 1 →
        cb_day s tid day date ts g =
          (s, CbResult.outOfOrder
            ((daysOf s.checkins tid (weekStart date)).length + 1))) := by
  intro s tid day date ts g name hs hn hd
  have hinv := reachable_inv hs
  have hE := next_needed_eq_length hinv tid (weekStart date)
  refine ⟨hE, ?_, ?_⟩
  · intro ho
    rw [cb_day_accept s tid day date ts g name hn hd (by rw [hE]; exact ho)]
    exact (cb_day_post_insert s tid name day date ts _ g hd).2.2.2
  · intro ho
    rw [cb_day_outOfOrder s tid day date ts g name hn hd (by rw [hE]; exact ho),
      hE]

/-- Witness for C3: after one logged slot, requesting slot 3 the next day is
rejected as out of order with next required slot 2. -/
theorem claim_C3_witness :
    cb_day (cb_day (registerOp St.initial 1 "Mike") 1 1 700 5 false).1
        1 3 701 6 false =
      ((cb_day (registerOp St.initial 1 "Mike") 1 1 700 5 false).1,
        CbResult.outOfOrder 2) := by
  have h := claim_C3 (cb_day (registerOp St.initial 1 "Mike") 1 1 700 5 false).1
    1 3 701 6 false "Mike"
    (Reachable.checkin _ 1 1 700 5 false
      (Reachable.reg _ 1 "Mike" Reachable.init) (by decide) (by decide))
    (by decide) (by decide)
  have h3 := h.2.2 (by decide)
  rw [h3]
  decide

/-- Ledger exhibiting a streak gap: member Mike has full weeks with week_start
35, 28 and 21, no check-in at all in week 14, and a full week 7. -/
def gapLedger : List Rec :=
  [⟨1, 1, "Mike", 7, 1, 20, 1, 7⟩, ⟨2, 1, "Mike", 7, 2, 20, 2, 8⟩,
   ⟨3, 1, "Mike", 7, 3, 20, 3, 9⟩,
   ⟨4, 1, "Mike", 21, 1, 20, 4, 21⟩, ⟨5, 1, "Mike", 21, 2, 20, 5, 22⟩,
   ⟨6, 1, "Mike", 21, 3, 20, 6, 23⟩,
   ⟨7, 1, "Mike", 28, 1, 20, 7, 28⟩, ⟨8, 1, "Mike", 28, 2, 20, 8, 29⟩,
   ⟨9, 1, "Mike", 28, 3, 20, 9, 30⟩,
   ⟨10, 1, "Mike", 35, 1, 20, 10, 35⟩, ⟨11, 1, "Mike", 35, 2, 20, 11, 36⟩,
   ⟨12, 1, "Mike", 35, 3, 20, 12, 37⟩]

/-- C5: the streak walk of the code does not stop at a calendar week with zero
check-ins, because a week with no rows produces no GROUP BY group.  On a
ledger with full weeks 35, 28, 21, an empty week 14 and a full week 7, the
code computes streak 4, while the claim (and the stated spec property) demand
streak exactly 3 for any earlier history. -/
theorem claim_C5 :
    streakOf gapLedger "Mike" = 4 ∧ streakOf gapLedger "Mike" ≠ 3 := by
  decide

/-! ### XP delta of the insert phase -/

theorem cb_day_post_xpOf_insert (s : St) (tid : Nat) (name : String)
    (day date ts : Nat) (dd : List Nat) (g : Bool)
    (h : ¬ ∃ r ∈ s.checkins, r.telegram_id = tid ∧ r.local_date = date) :
    xpOf (cb_day_post s tid name day date ts dd g).1 tid =
      xpOf s tid + XP_PER_CHECKIN +
        (if (daysOf (mkRec s.nextId tid name (weekStart date) day ts date ::
              s.checkins) tid (weekStart date)).length = 3 ∧ g = true
         then XP_BONUS_FULL_WEEK else 0) := by
  unfold cb_day_post
  dsimp only
  rw [decide_eq_true h]
  simp only [if_true]
  split
  · unfold xpOf
    dsimp only
    rw [tableXp_set_xp_self, get_or_create_val, maybe_award_xp_amount]
    dsimp only
    rw [tableXp_set_xp_self, get_or_create_val]
  · unfold xpOf
    rw [maybe_award_xp_amount]
    dsimp only
    rw [tableXp_set_xp_self, get_or_create_val]
    omega

theorem cb_day_post_xpOf_dup (s : St) (tid : Nat) (name : String)
    (day date ts : Nat) (dd : List Nat) (g : Bool)
    (h : ∃ r ∈ s.checkins, r.telegram_id = tid ∧ r.local_date = date) :
    xpOf (cb_day_post s tid name day date ts dd g).1 tid =
      xpOf s tid + XP_PER_CHECKIN +
        (if (daysOf s.checkins tid (weekStart date)).length = 3 ∧ g = true
         then XP_BONUS_FULL_WEEK else 0) := by
  unfold cb_day_post
  dsimp only
  rw [decide_eq_false (not_not_intro h)]
  simp only [Bool.false_eq_true, if_false]
  split
  · unfold xpOf
    dsimp only
    rw [tableXp_set_xp_self, get_or_create_val, maybe_award_xp_amount]
    dsimp only
    rw [tableXp_set_xp_self, get_or_create_val]
  · unfold xpOf
    rw [maybe_award_xp_amount]
    dsimp only
    rw [tableXp_set_xp_self, get_or_create_val]
    omega

/-- Store holding one checkin of member 1 (Mike) on date 700, produced by a
full cb_day run; xpOf is 10. -/
def dupState : St := (cb_day (registerOp St.initial 1 "Mike") 1 1 700 5 false).1

/-- C4 counterexample: running the insert phase against a store where the
daily row already exists (the concurrent-duplicate race the claim describes)
reports the idempotent AlreadyLogged — but the per-checkin XP is still added:
the member total goes from 10 to 20, so the attempt does not leave total_xp
exactly as it was, contradicting the claim as stated. -/
theorem claim_C4_cex :
    (cb_day_post dupState 1 "Mike" 1 700 6 [] false).2 = CbResult.alreadyLogged 1 ∧
    xpOf dupState 1 = 10 ∧
    xpOf (cb_day_post dupState 1 "Mike" 1 700 6 [] false).1 1 = 20 := by
  decide

/-- C4 as amended: a uniqueness violation at insert time is indeed treated as
the idempotent duplicate AlreadyLogged and inserts nothing, and the two guard
rejections leave the entire store (hence total_xp, level and badges) exactly
unchanged; but the AlreadyLogged path still adds the per-checkin XP (plus the
weekly bonus when the week shows 3 distinct slots and the group chat is
configured), so XPState is not untouched on the duplicate path. -/
theorem claim_C4 :
    (∀ (s : St) (tid : Nat) (name : String) (day date ts : Nat) (dd : List Nat)
       (g : Bool),
       (∃ r ∈ s.checkins, r.telegram_id = tid ∧ r.local_date = date) →
       (cb_day_post s tid name day date ts dd g).2 = CbResult.alreadyLogged day ∧
       (cb_day_post s tid name day date ts dd g).1.checkins = s.checkins ∧
       xpOf (cb_day_post s tid name day date ts dd g).1 tid =
         xpOf s tid + XP_PER_CHECKIN +
           (if (daysOf s.checkins tid (weekStart date)).length = 3 ∧ g = true
            then XP_BONUS_FULL_WEEK else 0)) ∧
    (∀ (s : St) (tid day date ts : Nat) (g : Bool) (name : String),
       s.users.lookup tid = some name →
       ((∃ r ∈ s.checkins, r.telegram_id = tid ∧ r.local_date = date) →
         cb_day s tid day date ts g = (s, CbResult.alreadyToday date)) ∧
       ((¬ ∃ r ∈ s.checkins, r.telegram_id = tid ∧ r.local_date = date) →
         day ≠ next_needed s.checkins tid (weekStart date) →
         cb_day s tid day date ts g =
           (s, CbResult.outOfOrder (next_needed s.checkins tid (weekStart date))))) := by
  constructor
  · intro s tid name day date ts dd g h
    exact ⟨(cb_day_post_dup s tid name day date ts dd g h).2.2.2,
      (cb_day_post_dup s tid name day date ts dd g h).1,
      cb_day_post_xpOf_dup s tid name day date ts dd g h⟩
  · intro s tid day date ts g name hn
    exact ⟨fun h => cb_day_alreadyToday s tid day date ts g name hn h,
      fun h ho => cb_day_outOfOrder s tid day date ts g name hn h ho⟩

/-- Witness for C4 at the duplicate store. -/
theorem claim_C4_witness :
    (cb_day_post dupState 1 "Mike" 1 700 6 [] false).2 =
      CbResult.alreadyLogged 1 ∧
    (cb_day_post dupState 1 "Mike" 1 700 6 [] false).1.checkins =
      dupState.checkins ∧
    xpOf (cb_day_post dupState 1 "Mike" 1 700 6 [] false).1 1 =
      xpOf dupState 1 + XP_PER_CHECKIN +
        (if (daysOf dupState.checkins 1 (weekStart 700)).length = 3 ∧
            false = true then XP_BONUS_FULL_WEEK else 0) :=
  claim_C4.1 dupState 1 "Mike" 1 700 6 [] false (by decide)

/-- Run exhibiting the double bonus: Mike logs days 1, 2, 3 on dates 700-702
(first bonus), undoes the day-3 record, and logs day 3 again the same date
(second bonus); the group chat is configured throughout. -/
def doubleBonusState : St :=
  (cb_day
    (undoOp
      (cb_day
        (cb_day
          (cb_day (registerOp St.initial 1 "Mike") 1 1 700 1 true).1
          1 2 701 2 true).1
        1 3 702 3 true).1
      1 702).1
    1 3 702 4 true).1

/-- C6 counterexample: after four accepted check-ins (the last one an
undo-and-redo of slot 3 in the same week) the member holds 100 XP, not the
70 XP that four per-checkin awards and a single weekly bonus would give: the
full-week bonus was added twice in the same week, contradicting the claim
that it is added at most once per week regardless of undo-and-redo. -/
theorem claim_C6_cex :
    xpOf doubleBonusState 1 = 100 ∧
    xpOf doubleBonusState 1 ≠ 4 * XP_PER_CHECKIN + XP_BONUS_FULL_WEEK := by
  decide

/-- C6 as amended: every accepted check-in adds the fixed per-checkin XP, and
the weekly bonus is added exactly when the post-insert distinct-slot count of
the week equals 3 and the group chat is configured — a per-check-in trigger,
not a once-per-week one, so an undo-and-redo that makes the count reach 3
again adds the bonus again, and the bonus is skipped when no group chat is
configured. -/
theorem claim_C6 :
    ∀ (s : St) (tid day date ts : Nat) (g : Bool) (name : String),
      s.users.lookup tid = some name →
      (¬ ∃ r ∈ s.checkins, r.telegram_id = tid ∧ r.local_date = date) →
      day = next_needed s.checkins tid (weekStart date) →
      (cb_day s tid day date ts g).2 = CbResult.logged day ∧
      xpOf (cb_day s tid day date ts g).1 tid =
        xpOf s tid + XP_PER_CHECKIN +
          (if (daysOf (mkRec s.nextId tid name (weekStart date) day ts date ::
                s.checkins) tid (weekStart date)).length = 3 ∧ g = true
           then XP_BONUS_FULL_WEEK else 0) := by
  intro s tid day date ts g name hn hd ho
  rw [cb_day_accept s tid day date ts g name hn hd ho]
  exact ⟨(cb_day_post_insert s tid name day date ts _ g hd).2.2.2,
    cb_day_post_xpOf_insert s tid name day date ts _ g hd⟩

/-- Witness for C6: the redo of slot 3 inside the double-bonus run is accepted
and adds 10 + 30 XP on top of the 60 already held. -/
theorem claim_C6_witness :
    ((cb_day
        (undoOp
          (cb_day
            (cb_day
              (cb_day (registerOp St.initial 1 "Mike") 1 1 700 1 true).1
              1 2 701 2 true).1
            1 3 702 3 true).1
          1 702).1
        1 3 702 4 true).2 = CbResult.logged 3) ∧
    xpOf doubleBonusState 1 =
      xpOf (undoOp
        (cb_day
          (cb_day
            (cb_day (registerOp St.initial 1 "Mike") 1 1 700 1 true).1
            1 2 701 2 true).1
          1 3 702 3 true).1
        1 702).1 1 + XP_PER_CHECKIN +
        (if (daysOf (mkRec (undoOp
              (cb_day
                (cb_day
                  (cb_day (registerOp St.initial 1 "Mike") 1 1 700 1 true).1
                  1 2 701 2 true).1
                1 3 702 3 true).1
              1 702).1.nextId 1 "Mike" (weekStart 702) 3 4 702 ::
              (undoOp
                (cb_day
                  (cb_day
                    (cb_day (registerOp St.initial 1 "Mike") 1 1 700 1 true).1
                    1 2 701 2 true).1
                  1 3 702 3 true).1
                1 702).1.checkins) 1 (weekStart 702)).length = 3 ∧ true = true
         then XP_BONUS_FULL_WEEK else 0) :=
  claim_C6
    (undoOp
      (cb_day
        (cb_day
          (cb_day (registerOp St.initial 1 "Mike") 1 1 700 1 true).1
          1 2 701 2 true).1
        1 3 702 3 true).1
      1 702).1
    1 3 702 4 true "Mike" (by decide) (by decide) (by decide)

/-! ### Badge uniqueness across reachable stores -/

/-- At most one badge row per (member, code). -/
def BadgesUnique (bs : List BadgeRow) : Prop :=
  ∀ b1 ∈ bs, ∀ b2 ∈ bs, b1.telegram_id = b2.telegram_id →
    b1.badge_code = b2.badge_code → b1 = b2

theorem badgesUnique_award (s : St) (tid : Nat) (n c : String) (wk : Option Nat)
    (ts : Nat) (h : BadgesUnique s.badges) :
    BadgesUnique ((award_badge s tid n c wk ts).2).badges := by
  unfold award_badge
  split
  · exact h
  · rename_i hne
    dsimp only
    intro b1 h1 b2 h2 ht hc
    rcases List.mem_cons.mp h1 with h1 | h1 <;> rcases List.mem_cons.mp h2 with h2 | h2
    · rw [h1, h2]
    · exfalso
      subst h1
      exact hne ⟨b2, h2, ht.symm, hc.symm⟩
    · exfalso
      subst h2
      exact hne ⟨b1, h1, ht, hc⟩
    · exact h b1 h1 b2 h2 ht hc

theorem badgesUnique_maybe (s : St) (tid : Nat) (n : String) (wk : Nat)
    (dd : List Nat) (k : Nat) (z m : Bool) (ts : Nat) (h : BadgesUnique s.badges) :
    BadgesUnique ((maybe_award_condition_badges s tid n wk dd k z m ts).2).badges := by
  unfold maybe_award_condition_badges
  dsimp only
  repeat'
    first
      | exact h
      | apply badgesUnique_award
      | split

theorem badgesUnique_cb_day_post (s : St) (tid : Nat) (name : String)
    (day date ts : Nat) (dd : List Nat) (g : Bool) (h : BadgesUnique s.badges) :
    BadgesUnique (cb_day_post s tid name day date ts dd g).1.badges := by
  unfold cb_day_post
  dsimp only
  repeat'
    first
      | exact badgesUnique_maybe _ tid name _ _ _ _ _ ts h
      | split

theorem undoOp_badges (s : St) (tid date : Nat) :
    (undoOp s tid date).1.badges = s.badges := by
  unfold undoOp
  dsimp only
  cases hm : lastByTs (weekRecs s.checkins tid (weekStart date)) <;> rfl

theorem undoOp_users (s : St) (tid date : Nat) :
    (undoOp s tid date).1.users = s.users := by
  unfold undoOp
  dsimp only
  cases hm : lastByTs (weekRecs s.checkins tid (weekStart date)) <;> rfl

theorem undoOp_nextId (s : St) (tid date : Nat) :
    (undoOp s tid date).1.nextId = s.nextId := by
  unfold undoOp
  dsimp only
  cases hm : lastByTs (weekRecs s.checkins tid (weekStart date)) <;> rfl

theorem undoOp_xp (s : St) (tid date : Nat) :
    (undoOp s tid date).1.xp = s.xp := by
  unfold undoOp
  dsimp only
  cases hm : lastByTs (weekRecs s.checkins tid (weekStart date)) <;> rfl

theorem registerOp_badges (s : St) (tid : Nat) (name : String) :
    (registerOp s tid name).badges = s.badges := by
  unfold registerOp; split <;> rfl

theorem reachable_badgesUnique {s : St} (h : Reachable s) :
    BadgesUnique s.badges := by
  induction h with
  | init => intro b hb; cases hb
  | reg s tid name _ ih => rw [registerOp_badges]; exact ih
  | checkin s tid day date ts g _ hday hfresh ih =>
    cases hu : s.users.lookup tid with
    | none =>
      rw [cb_day_notRegistered s tid day date ts g hu]
      exact ih
    | some name =>
      by_cases hdup : ∃ r ∈ s.checkins, r.telegram_id = tid ∧ r.local_date = date
      · rw [cb_day_alreadyToday s tid day date ts g name hu hdup]
        exact ih
      · by_cases ho : day = next_needed s.checkins tid (weekStart date)
        · rw [cb_day_accept s tid day date ts g name hu hdup ho]
          exact badgesUnique_cb_day_post s tid name day date ts _ g ih
        · rw [cb_day_outOfOrder s tid day date ts g name hu hdup ho]
          exact ih
  | undoStep s tid date _ hdate ih =>
    rw [undoOp_badges]
    exact ih

/-- C7: award_badge is idempotent.  First: when a row for (member, code)
exists the call changes nothing at all (so no second row, no modified row) and
reports false.  Second: when the pair is absent the call reports true and the
badge table gains exactly the new row.  Third: on every reachable store two
badge rows agreeing on (member, code) are the same row, so any operation
sequence keeps at most one BadgeAward row per (member, code). -/
theorem claim_C7 :
    (∀ (s : St) (tid : Nat) (n c : String) (wk : Option Nat) (ts : Nat),
       (∃ b ∈ s.badges, b.telegram_id = tid ∧ b.badge_code = c) →
       award_badge s tid n c wk ts = (false, s)) ∧
    (∀ (s : St) (tid : Nat) (n c : String) (wk : Option Nat) (ts : Nat),
       (¬ ∃ b ∈ s.badges, b.telegram_id = tid ∧ b.badge_code = c) →
       (award_badge s tid n c wk ts).1 = true ∧
       (award_badge s tid n c wk ts).2.badges =
         ⟨tid, n, c, BADGE_TITLES c, ts, wk⟩ :: s.badges) ∧
    (∀ s : St, Reachable s → BadgesUnique s.badges) := by
  refine ⟨?_, ?_, fun s hs => reachable_badgesUnique hs⟩
  · intro s tid n c wk ts h
    unfold award_badge
    rw [if_pos h]
  · intro s tid n c wk ts h
    unfold award_badge
    rw [if_neg h]
    exact ⟨rfl, rfl⟩

/-- Witness for C7: granting EARLY_BIRD twice; the second call returns false
and leaves the store untouched. -/
theorem claim_C7_witness :
    award_badge (award_badge St.initial 1 "Mike" "EARLY_BIRD" none 5).2
        1 "Mike" "EARLY_BIRD" none 6 =
      (false, (award_badge St.initial 1 "Mike" "EARLY_BIRD" none 5).2) :=
  claim_C7.1 _ 1 "Mike" "EARLY_BIRD" none 6 (by decide)

/-! ### Scheduler replacement -/

theorem filter_rem_map_self (tid : Nat) (d : List Nat) (hour minute : Nat) :
    (d.map (fun wd => (⟨JobName.rem tid, wd, hour, minute, tid⟩ : Job))).filter
        (fun j => decide (j.name = JobName.rem tid)) =
      d.map (fun wd => (⟨JobName.rem tid, wd, hour, minute, tid⟩ : Job)) := by
  rw [List.filter_eq_self]
  intro a ha
  obtain ⟨wd, hwd, hae⟩ := List.mem_map.mp ha
  subst hae
  simp

theorem filter_ne_rem_map (tid : Nat) (d : List Nat) (hour minute : Nat) :
    (d.map (fun wd => (⟨JobName.rem tid, wd, hour, minute, tid⟩ : Job))).filter
        (fun j => decide (j.name ≠ JobName.rem tid)) = [] := by
  rw [List.filter_eq_nil_iff]
  intro a ha
  obtain ⟨wd, hwd, hae⟩ := List.mem_map.mp ha
  subst hae
  simp

theorem schedule_twice (jobs : List Job) (tid : Nat) (d1 d2 : List Nat)
    (h1 m1 h2 m2 : Nat) :
    schedule_user_reminders (schedule_user_reminders jobs tid d1 h1 m1) tid d2 h2 m2 =
      jobs.filter (fun j => decide (j.name ≠ JobName.rem tid)) ++
        d2.map (fun wd => (⟨JobName.rem tid, wd, h2, m2, tid⟩ : Job)) := by
  unfold schedule_user_reminders
  rw [List.filter_append, filter_ne_rem_map, List.append_nil, List.filter_filter]
  congr 1
  apply List.filter_congr
  intro a _
  simp

theorem count_rem_day (tid h2 m2 : Nat) :
    ∀ (d2 : List Nat), d2.Nodup → ∀ wd : Nat,
      ((d2.map (fun wd => (⟨JobName.rem tid, wd, h2, m2, tid⟩ : Job))).filter
          (fun j => decide (j.name = JobName.rem tid ∧ j.dayOfWeek = wd))).length =
        if wd ∈ d2 then 1 else 0 := by
  intro d2
  induction d2 with
  | nil => intro _ wd; simp
  | cons a l ih =>
    intro hnd wd
    have htail := ih (List.Nodup.of_cons hnd) wd
    by_cases haw : a = wd
    · subst haw
      have hnot : a ∉ l := (List.nodup_cons.mp hnd).1
      simp only [List.map_cons, List.filter_cons]
      rw [if_pos (by simp)]
      simp only [List.length_cons, htail, if_neg hnot, if_pos (List.mem_cons_self a l)]
    · simp only [List.map_cons, List.filter_cons]
      rw [if_neg (by simp [haw])]
      rw [htail]
      by_cases hwl : wd ∈ l
      · rw [if_pos hwl, if_pos (List.mem_cons_of_mem _ hwl)]
      · rw [if_neg hwl, if_neg (by
          intro hc
          rcases List.mem_cons.mp hc with hc | hc
          · exact haw hc.symm
          · exact hwl hc)]

/-- C8: setSchedule replaces rather than accumulates.  After two calls for the
same member, the registry holds exactly one trigger per weekday of the second
call at the second wall-clock time (first conjunct, plus the per-weekday count
under a duplicate-free weekday list in the third conjunct), no trigger of the
first call survives (it would have to appear in the first conjunct list), and
every job not named rem-member — in particular every other member trigger — is
exactly the one from before both calls (second and fourth conjuncts). -/
theorem claim_C8 :
    ∀ (jobs : List Job) (tid : Nat) (d1 d2 : List Nat) (h1 m1 h2 m2 : Nat),
      ((schedule_user_reminders (schedule_user_reminders jobs tid d1 h1 m1)
          tid d2 h2 m2).filter (fun j => decide (j.name = JobName.rem tid)) =
        d2.map (fun wd => (⟨JobName.rem tid, wd, h2, m2, tid⟩ : Job))) ∧
      ((schedule_user_reminders (schedule_user_reminders jobs tid d1 h1 m1)
          tid d2 h2 m2).filter (fun j => decide (j.name ≠ JobName.rem tid)) =
        jobs.filter (fun j => decide (j.name ≠ JobName.rem tid))) ∧
      (d2.Nodup → ∀ wd : Nat,
        ((schedule_user_reminders (schedule_user_reminders jobs tid d1 h1 m1)
            tid d2 h2 m2).filter
            (fun j => decide (j.name = JobName.rem tid ∧ j.dayOfWeek = wd))).length =
          if wd ∈ d2 then 1 else 0) ∧
      (∀ tid' : Nat, tid' ≠ tid →
        (schedule_user_reminders (schedule_user_reminders jobs tid d1 h1 m1)
            tid d2 h2 m2).filter (fun j => decide (j.name = JobName.rem tid')) =
          jobs.filter (fun j => decide (j.name = JobName.rem tid'))) := by
  intro jobs tid d1 d2 h1 m1 h2 m2
  rw [schedule_twice]
  refine ⟨?_, ?_, ?_, ?_⟩
  · rw [List.filter_append, filter_rem_map_self, List.filter_filter]
    rw [List.filter_eq_nil_iff.mpr (by intro a _; simp)]
    rfl
  · rw [List.filter_append, filter_ne_rem_map, List.append_nil,
      List.filter_filter]
    apply List.filter_congr
    intro a _
    simp
  · intro hnd wd
    rw [List.filter_append]
    rw [List.filter_eq_nil_iff.mpr (by
      intro a ha
      have := List.mem_filter.mp ha
      simp at this ⊢
      intro h _
      exact absurd h this.2)]
    rw [List.nil_append]
    exact count_rem_day tid h2 m2 d2 hnd wd
  · intro tid' hne
    rw [List.filter_append]
    rw [show (d2.map (fun wd => (⟨JobName.rem tid, wd, h2, m2, tid⟩ : Job))).filter
        (fun j => decide (j.name = JobName.rem tid')) = [] from by
      rw [List.filter_eq_nil_iff]
      intro a ha
      obtain ⟨wd, hwd, hae⟩ := List.mem_map.mp ha
      subst hae
      simp
      intro hc
      exact hne hc.symm]
    rw [List.append_nil, List.filter_filter]
    apply List.filter_congr
    intro a _
    by_cases hName : a.name = JobName.rem tid'
    · have h2c : a.name ≠ JobName.rem tid := by
        rw [hName]
        intro hc
        injection hc with h3
        exact hne h3
      simp [hName, h2c]
      exact hne
    · simp [hName]

/-- Witness for C8: Monday and Wednesday triggers at 19:30 replaced by a
single Friday 08:00 trigger; a foreign group job survives and the Monday slot
count drops to zero. -/
theorem claim_C8_witness :
    ((schedule_user_reminders (schedule_user_reminders
        [⟨JobName.grpMon9am, 0, 9, 0, 99⟩] 1 [0, 2] 19 30) 1 [4] 8 0).filter
        (fun j => decide (j.name = JobName.rem 1)) =
      [⟨JobName.rem 1, 4, 8, 0, 1⟩]) ∧
    ((schedule_user_reminders (schedule_user_reminders
        [⟨JobName.grpMon9am, 0, 9, 0, 99⟩] 1 [0, 2] 19 30) 1 [4] 8 0).filter
        (fun j => decide (j.name = JobName.rem 1 ∧ j.dayOfWeek = 0))).length = 0 := by
  have h := claim_C8 [⟨JobName.grpMon9am, 0, 9, 0, 99⟩] 1 [0, 2] [4] 19 30 8 0
  refine ⟨?_, ?_⟩
  · rw [h.1]; rfl
  · rw [h.2.2.1 (by decide) 0]
    decide

/-! ### Round trip of the reminder-days codec -/

theorem splitComma_no_comma : ∀ {p : List Char}, ',' ∉ p → splitComma p = [p] := by
  intro p
  induction p with
  | nil => intro _; rfl
  | cons c cs ih =>
    intro h
    have hc : ¬ c = ',' := fun hc => h (hc ▸ List.mem_cons_self _ _)
    have hcs : ',' ∉ cs := fun hm => h (List.mem_cons_of_mem _ hm)
    simp only [splitComma, if_neg hc, ih hcs]

theorem splitComma_append : ∀ {p : List Char} (l : List Char), ',' ∉ p →
    splitComma (p ++ ',' :: l) = p :: splitComma l := by
  intro p
  induction p with
  | nil => intro l _; simp [splitComma]
  | cons c cs ih =>
    intro l h
    have hc : ¬ c = ',' := fun hc => h (hc ▸ List.mem_cons_self _ _)
    have hcs : ',' ∉ cs := fun hm => h (List.mem_cons_of_mem _ hm)
    simp only [List.cons_append, splitComma, if_neg hc, List.append_eq]
    rw [ih l hcs]

theorem splitComma_joinComma : ∀ {parts : List (List Char)}, parts ≠ [] →
    (∀ p ∈ parts, ',' ∉ p) → splitComma (joinComma parts) = parts := by
  intro parts
  induction parts with
  | nil => intro h; exact absurd rfl h
  | cons p ps ih =>
    intro _ hp
    cases ps with
    | nil =>
      show splitComma (joinComma [p]) = [p]
      rw [joinComma]
      exact splitComma_no_comma (hp p (List.mem_cons_self _ _))
    | cons q qs =>
      show splitComma (p ++ ',' :: joinComma (q :: qs)) = p :: q :: qs
      rw [splitComma_append _ (hp p (List.mem_cons_self _ _))]
      rw [ih (by simp) (fun r hr => hp r (List.mem_cons_of_mem _ hr))]

theorem revName_facts : ∀ d : Nat, d < 7 →
    (',' ∉ revName d) ∧ pyStrip (revName d) = revName d ∧
    pyUpper (revName d) = revName d ∧
    WEEKDAY_MAP.lookup (revName d) = some d := by
  decide

theorem filterMap_revName : ∀ l : List Nat, (∀ d ∈ l, d < 7) →
    (l.map revName).filterMap
        (fun part => WEEKDAY_MAP.lookup (pyUpper (pyStrip part))) = l := by
  intro l
  induction l with
  | nil => intro _; rfl
  | cons d ds ih =>
    intro h
    have hd := revName_facts d (h d (List.mem_cons_self _ _))
    rw [List.map_cons, List.filterMap_cons, hd.2.1, hd.2.2.1, hd.2.2.2]
    rw [ih (fun e he => h e (List.mem_cons_of_mem _ he))]

theorem lookup_mem_snd {α β : Type} [BEq α] :
    ∀ (l : List (α × β)) (k : α) (v : β),
      List.lookup k l = some v → v ∈ l.map Prod.snd := by
  intro l
  induction l with
  | nil => intro k v h; simp [List.lookup] at h
  | cons p rest ih =>
    intro k v h
    cases p with
    | mk a b =>
      rw [List.lookup_cons] at h
      cases hkb : (k == a) with
      | true =>
        rw [hkb] at h
        simp at h
        subst h
        exact List.mem_cons_self _ _
      | false =>
        rw [hkb] at h
        exact List.mem_cons_of_mem _ (ih k v h)

/-- C10: the persisted reminder-days encoding round-trips.  First conjunct:
for every nonempty duplicate-free list of weekday indices below 7, parsing the
normalized csv returns exactly those indices sorted ascending.  Second
conjunct: on any input string parse_days_csv returns an ascending,
duplicate-free list of indices below 7, so the schedule rehydrated at startup
from days_csv is exactly the schedule that was saved. -/
theorem claim_C10 :
    (∀ days : List Nat, days.Nodup → (∀ d ∈ days, d < 7) → days ≠ [] →
       parse_days_csv (normalize_days_to_csv days) =
         days.insertionSort (· ≤ ·) ∧
       (days.insertionSort (· ≤ ·)).Perm days ∧
       List.Sorted (· ≤ ·) (days.insertionSort (· ≤ ·))) ∧
    (∀ s : List Char,
       List.Sorted (· ≤ ·) (parse_days_csv s) ∧ (parse_days_csv s).Nodup ∧
       ∀ d ∈ parse_days_csv s, d < 7) := by
  constructor
  · intro days hnd hlt hne
    have hperm : (days.insertionSort (· ≤ ·)).Perm days :=
      List.perm_insertionSort _ days
    have hsorted : List.Sorted (· ≤ ·) (days.insertionSort (· ≤ ·)) :=
      List.sorted_insertionSort _ days
    refine ⟨?_, hperm, hsorted⟩
    have hlt2 : ∀ d ∈ days.insertionSort (· ≤ ·), d < 7 := by
      intro d hd
      exact hlt d ((List.mem_insertionSort _).mp hd)
    have hne2 : days.insertionSort (· ≤ ·) ≠ [] := by
      intro h0
      rw [h0] at hperm
      exact hne hperm.symm.eq_nil
    have hnd2 : (days.insertionSort (· ≤ ·)).Nodup := hperm.nodup_iff.mpr hnd
    unfold normalize_days_to_csv parse_days_csv
    rw [splitComma_joinComma (by
        intro h0
        exact hne2 (List.map_eq_nil_iff.mp h0))
      (by
        intro p hp
        obtain ⟨d, hd, he⟩ := List.mem_map.mp hp
        subst he
        exact (revName_facts d (hlt2 d hd)).1)]
    rw [filterMap_revName _ hlt2]
    rw [List.dedup_eq_self.mpr hnd2]
    exact List.Sorted.insertionSort_eq hsorted
  · intro s
    refine ⟨List.sorted_insertionSort _ _, ?_, ?_⟩
    · exact (List.perm_insertionSort _ _).nodup_iff.mpr (List.nodup_dedup _)
    · intro d hd
      unfold parse_days_csv at hd
      rw [List.mem_insertionSort, List.mem_dedup] at hd
      obtain ⟨part, hpart, hlook⟩ := List.mem_filterMap.mp hd
      have := lookup_mem_snd WEEKDAY_MAP _ d hlook
      simp [WEEKDAY_MAP] at this
      omega

/-- Witness for C10 at the weekday list WED, MON. -/
theorem claim_C10_witness :
    parse_days_csv (normalize_days_to_csv [2, 0]) =
      ([2, 0] : List Nat).insertionSort (· ≤ ·) ∧
    (([2, 0] : List Nat).insertionSort (· ≤ ·)).Perm [2, 0] ∧
    List.Sorted (· ≤ ·) (([2, 0] : List Nat).insertionSort (· ≤ ·)) :=
  claim_C10.1 [2, 0] (by decide) (by decide) (by decide)

/-! ### Undo-then-redo analysis -/

/-- Projection of a checkin row to its spec-visible content: everything except
the autoincrement id and the timestamp. -/
def projRec (r : Rec) : Nat × String × Nat × Nat × Nat × Nat :=
  (r.telegram_id, r.team_name, r.week_start, r.day, r.minutes, r.local_date)

theorem undo_pick (s : St) (tid date : Nat) (r : Rec)
    (hinv : InvL s.checkins s.nextId)
    (hr : r ∈ s.checkins) (hrt : r.telegram_id = tid) (hrd : r.local_date = date)
    (hdates : ∀ q ∈ s.checkins, q.local_date ≤ date) :
    lastByTs (weekRecs s.checkins tid (weekStart date)) = some r ∧
    (∀ q ∈ weekRecs s.checkins tid (weekStart date), q ≠ r → q.ts < r.ts) := by
  have hwr : r ∈ weekRecs s.checkins tid (weekStart date) :=
    mem_weekRecs.mpr ⟨hr, hrt, by rw [hinv.week_eq r hr, hrd]⟩
  have hstrict : ∀ q ∈ weekRecs s.checkins tid (weekStart date), q ≠ r →
      q.ts < r.ts := by
    intro q hq hqr
    obtain ⟨hqcs, hqt, hqw⟩ := mem_weekRecs.mp hq
    by_cases hqd : q.local_date = date
    · exact absurd
        (hinv.daily q hqcs r hr (by rw [hqt, hrt]) (by rw [hqd, hrd])) hqr
    · have hlt : q.local_date < r.local_date := by
        have := hdates q hqcs
        omega
      exact hinv.ts_date q hqcs r hr hlt
  refine ⟨?_, hstrict⟩
  cases hp : lastByTs (weekRecs s.checkins tid (weekStart date)) with
  | none =>
    exfalso
    rw [lastByTs_eq_none.mp hp] at hwr
    exact List.not_mem_nil _ hwr
  | some m =>
    have hmm : m ∈ weekRecs s.checkins tid (weekStart date) := lastByTs_mem hp
    by_cases hmr : m = r
    · rw [hmr]
    · exfalso
      have h1 := hstrict m hmm hmr
      have h2 := lastByTs_le hp r hwr
      omega

theorem daysOf_after_erase (s : St) (tid date : Nat) (r : Rec)
    (hinv : InvL s.checkins s.nextId) (hr : r ∈ s.checkins)
    (hrt : r.telegram_id = tid) (hrw : r.week_start = weekStart date) :
    ∀ d, d ∈ daysOf (s.checkins.filter fun q => decide (q.id ≠ r.id)) tid
        (weekStart date) ↔
      (d ∈ daysOf s.checkins tid (weekStart date) ∧ d ≠ r.day) := by
  intro d
  constructor
  · intro hd
    obtain ⟨q, hq1, hqt, hqw, hqd⟩ := mem_daysOf.mp hd
    have hqcs : q ∈ s.checkins := List.mem_of_mem_filter hq1
    have hqid : q.id ≠ r.id := by
      have := (List.mem_filter.mp hq1).2
      simpa using this
    refine ⟨mem_daysOf.mpr ⟨q, hqcs, hqt, hqw, hqd⟩, ?_⟩
    intro hdr
    have hqr : q = r := hinv.slot_uniq q hqcs r hr (by rw [hqt, hrt])
      (by rw [hqw, hrw]) (by rw [hqd, hdr])
    exact hqid (by rw [hqr])
  · rintro ⟨hd, hdr⟩
    obtain ⟨q, hqcs, hqt, hqw, hqd⟩ := mem_daysOf.mp hd
    have hqr : q ≠ r := by
      intro hqr
      subst hqr
      exact hdr hqd.symm
    have hqid : q.id ≠ r.id := by
      intro hid
      exact hqr (hinv.ids_uniq q hqcs r hr hid)
    refine mem_daysOf.mpr ⟨q, ?_, hqt, hqw, hqd⟩
    rw [List.mem_filter]
    exact ⟨hqcs, by simpa using hqid⟩

theorem next_needed_after_erase (s : St) (tid date : Nat) (r : Rec)
    (hinv : InvL s.checkins s.nextId)
    (hmem : r.day ∈ daysOf s.checkins tid (weekStart date))
    (hmax : ∀ d ∈ daysOf s.checkins tid (weekStart date), d ≤ r.day)
    (hiff : ∀ d, d ∈ daysOf (s.checkins.filter fun q => decide (q.id ≠ r.id))
        tid (weekStart date) ↔
      (d ∈ daysOf s.checkins tid (weekStart date) ∧ d ≠ r.day))
    (hinv1 : InvL (s.checkins.filter fun q => decide (q.id ≠ r.id)) s.nextId) :
    next_needed (s.checkins.filter fun q => decide (q.id ≠ r.id)) tid
      (weekStart date) = r.day := by
  have hE := next_needed_eq_length hinv1 tid (weekStart date)
  have hnd1 : (daysOf (s.checkins.filter fun q => decide (q.id ≠ r.id)) tid
      (weekStart date)).Nodup := List.nodup_dedup _
  have hcard1 := List.toFinset_card_of_nodup hnd1
  rcases daysOf_cases hinv tid (weekStart date) with hc | hc | hc | hc
  · exfalso
    have := List.mem_toFinset.mpr hmem
    rw [hc] at this
    exact Finset.not_mem_empty _ this
  · have hr1 : r.day = 1 := by
      have := List.mem_toFinset.mpr hmem
      rw [hc] at this
      simpa using this
    have hnil : daysOf (s.checkins.filter fun q => decide (q.id ≠ r.id)) tid
        (weekStart date) = [] := by
      rw [List.eq_nil_iff_forall_not_mem]
      intro d hd
      obtain ⟨hd1, hd2⟩ := (hiff d).mp hd
      have := List.mem_toFinset.mpr hd1
      rw [hc] at this
      simp at this
      omega
    rw [hE, hnil, hr1]
    rfl
  · have hr2 : r.day = 2 := by
      have hmem2 := List.mem_toFinset.mpr hmem
      rw [hc] at hmem2
      have h2le : (2 : Nat) ≤ r.day :=
        hmax 2 (List.mem_toFinset.mp (by rw [hc]; decide))
      simp at hmem2
      omega
    have hfs : (daysOf (s.checkins.filter fun q => decide (q.id ≠ r.id)) tid
        (weekStart date)).toFinset = ({1} : Finset Nat) := by
      ext d
      rw [List.mem_toFinset, hiff d]
      constructor
      · rintro ⟨hd1, hd2⟩
        have := List.mem_toFinset.mpr hd1
        rw [hc] at this
        simp at this ⊢
        omega
      · intro hd
        simp at hd
        subst hd
        refine ⟨List.mem_toFinset.mp (by rw [hc]; decide), by omega⟩
    rw [hE, ← hcard1, hfs, hr2]
    rfl
  · have hr3 : r.day = 3 := by
      have hmem2 := List.mem_toFinset.mpr hmem
      rw [hc] at hmem2
      have h3le : (3 : Nat) ≤ r.day :=
        hmax 3 (List.mem_toFinset.mp (by rw [hc]; decide))
      simp at hmem2
      omega
    have hfs : (daysOf (s.checkins.filter fun q => decide (q.id ≠ r.id)) tid
        (weekStart date)).toFinset = ({1, 2} : Finset Nat) := by
      ext d
      rw [List.mem_toFinset, hiff d]
      constructor
      · rintro ⟨hd1, hd2⟩
        have := List.mem_toFinset.mpr hd1
        rw [hc] at this
        simp at this ⊢
        omega
      · intro hd
        simp at hd
        rcases hd with hd | hd <;> subst hd
        · exact ⟨List.mem_toFinset.mp (by rw [hc]; decide), by omega⟩
        · exact ⟨List.mem_toFinset.mp (by rw [hc]; decide), by omega⟩
    rw [hE, ← hcard1, hfs, hr3]
    rfl

theorem perm_proj_replace : ∀ {cs : List Rec} {r x : Rec},
    r ∈ cs → (cs.map (fun q => q.id)).Nodup → projRec x = projRec r →
    ((x :: cs.filter (fun q => decide (q.id ≠ r.id))).map projRec).Perm
      (cs.map projRec) := by
  intro cs
  induction cs with
  | nil => intro r x hr; cases hr
  | cons a rest ih =>
    intro r x hr hids hx
    have hids2 : (∀ x ∈ rest, ¬ x.id = a.id) ∧
        (rest.map (fun q => q.id)).Nodup := by
      simpa using hids
    by_cases ha : a.id = r.id
    · have har : a = r := by
        rcases List.mem_cons.mp hr with h1 | h1
        · rw [h1]
        · exact absurd ha.symm (hids2.1 r h1)
      have hfa : (a :: rest).filter (fun q => decide (q.id ≠ r.id)) =
          rest := by
        rw [List.filter_cons, if_neg (by simpa using ha)]
        rw [List.filter_eq_self]
        intro q hq
        simp only [decide_eq_true_eq]
        intro hqid
        exact hids2.1 q hq (hqid.trans ha.symm)
      rw [hfa, List.map_cons, hx, List.map_cons, har]
    · have hrrest : r ∈ rest := by
        rcases List.mem_cons.mp hr with h1 | h1
        · exact absurd (by rw [h1]) ha
        · exact h1
      have hfa : (a :: rest).filter (fun q => decide (q.id ≠ r.id)) =
          a :: rest.filter (fun q => decide (q.id ≠ r.id)) := by
        rw [List.filter_cons, if_pos (by simpa using ha)]
      rw [hfa, List.map_cons, List.map_cons, List.map_cons]
      refine List.Perm.trans (List.Perm.swap (projRec a) (projRec x) _) ?_
      exact List.Perm.cons _ (by
        have := ih hrrest hids2.2 hx
        rw [List.map_cons] at this
        exact this)


/-- Copy of a checkin row with its timestamp replaced by 0: two rows agree on
this projection exactly when they are identical except possibly in the
timestamp column. -/
def projNoTs (r : Rec) : Rec := { r with ts := 0 }

/-- C9 counterexample: Mike logs slot 1 on date 700 (row id 1, ts 5), undoes
it and re-submits the same slot the same day.  The redo is accepted, but the
resulting ledger is not identical to the pre-undo ledger up to only the
timestamp: the re-inserted row takes the fresh autoincrement id 2, so the
ledgers differ even after discarding timestamps, while they agree once both
the id and the timestamp are discarded. -/
theorem claim_C9_cex :
    (cb_day (undoOp dupState 1 700).1 1 1 700 6 false).2 =
      CbResult.logged 1 ∧
    (cb_day (undoOp dupState 1 700).1 1 1 700 6 false).1.checkins.map
        projNoTs ≠ dupState.checkins.map projNoTs ∧
    (cb_day (undoOp dupState 1 700).1 1 1 700 6 false).1.checkins.map
        projRec = dupState.checkins.map projRec :=
  ⟨by decide, by decide, by decide⟩

/-- C9 as amended: first conjunct, undoLast is a reported no-op when the
member has no record in the current week.  Second conjunct, fully general over
reachable stores: whenever the member does have records this week, the row
picked by ORDER BY ts DESC LIMIT 1 belongs to the member and week, is strictly
more recent than every other row of that member-week, and undoLast returns
exactly the store with that single row deleted — every other checkin row
survives and the users, xp, badges tables and the id counter are untouched.
Third conjunct, the redo scenario of the claim: when the undone record was
made on the current date, re-submission of the same slot at a later timestamp
is accepted (neither the daily cap nor the order rule blocks it) and the
resulting ledger is the old one with the deleted row replaced by a row equal
to it in every column except its id and its timestamp. -/
theorem claim_C9 :
    (∀ (s : St) (tid date : Nat),
       (¬ ∃ q ∈ s.checkins, q.telegram_id = tid ∧
          q.week_start = weekStart date) →
       undoOp s tid date = (s, UndoResult.noCheckins)) ∧
    (∀ (s : St) (tid date : Nat) (r : Rec),
       Reachable s →
       lastByTs (weekRecs s.checkins tid (weekStart date)) = some r →
       r ∈ s.checkins ∧ r.telegram_id = tid ∧
       r.week_start = weekStart date ∧
       (∀ q ∈ weekRecs s.checkins tid (weekStart date), q ≠ r →
         q.ts < r.ts) ∧
       undoOp s tid date =
         ({ s with checkins :=
             s.checkins.filter fun q => decide (q.id ≠ r.id) },
          UndoResult.removed r.day r.ts) ∧
       (∀ q ∈ s.checkins, q ≠ r → q ∈ (undoOp s tid date).1.checkins) ∧
       r ∉ (undoOp s tid date).1.checkins) ∧
    (∀ (s : St) (tid date ts : Nat) (g : Bool) (r : Rec),
       Reachable s →
       r ∈ s.checkins → r.telegram_id = tid → r.local_date = date →
       (∀ q ∈ s.checkins, q.local_date ≤ date) →
       s.users.lookup tid = some r.team_name →
       (∀ q ∈ s.checkins, q.ts < ts) →
       (cb_day (undoOp s tid date).1 tid r.day date ts g).2 =
         CbResult.logged r.day ∧
       (cb_day (undoOp s tid date).1 tid r.day date ts g).1.checkins =
         mkRec s.nextId tid r.team_name (weekStart date) r.day ts date ::
           s.checkins.filter (fun q => decide (q.id ≠ r.id)) ∧
       projRec (mkRec s.nextId tid r.team_name (weekStart date)
         r.day ts date) = projRec r ∧
       ((cb_day (undoOp s tid date).1 tid r.day date ts g).1.checkins.map
           projRec).Perm (s.checkins.map projRec)) := by
  refine ⟨?_, ?_, ?_⟩
  · intro s tid date h
    have hnil : weekRecs s.checkins tid (weekStart date) = [] := by
      rw [List.eq_nil_iff_forall_not_mem]
      intro q hq
      obtain ⟨h1, h2, h3⟩ := mem_weekRecs.mp hq
      exact h ⟨q, h1, h2, h3⟩
    unfold undoOp
    dsimp only
    rw [hnil]
    rfl
  · intro s tid date r hs hp
    have hinv : InvL s.checkins s.nextId := reachable_inv hs
    obtain ⟨hrcs, hrt, hrw⟩ := mem_weekRecs.mp (lastByTs_mem hp)
    have hub := lastByTs_le hp
    have hundo : undoOp s tid date =
        ({ s with checkins :=
            s.checkins.filter fun q => decide (q.id ≠ r.id) },
         UndoResult.removed r.day r.ts) := by
      unfold undoOp
      dsimp only
      rw [hp]
    refine ⟨hrcs, hrt, hrw, ?_, hundo, ?_, ?_⟩
    · intro q hq hqr
      have hle := hub q hq
      rcases Nat.lt_or_ge q.ts r.ts with h | h
      · exact h
      · exfalso
        have he : q.ts = r.ts := Nat.le_antisymm hle h
        exact hqr (hinv.ts_uniq q (mem_weekRecs.mp hq).1 r hrcs he)
    · intro q hq hqr
      rw [hundo]
      dsimp only
      rw [List.mem_filter]
      refine ⟨hq, ?_⟩
      simp only [decide_eq_true_eq]
      intro hid
      exact hqr (hinv.ids_uniq q hq r hrcs hid)
    · rw [hundo]
      dsimp only
      intro hmem
      have h0 := (List.mem_filter.mp hmem).2
      simp at h0
  · intro s tid date ts g r hs hr hrt hrd hdates husers hts
    have hinv : InvL s.checkins s.nextId := reachable_inv hs
    have hrw : r.week_start = weekStart date := by
      rw [hinv.week_eq r hr, hrd]
    obtain ⟨hpick, hstrict⟩ := undo_pick s tid date r hinv hr hrt hrd hdates
    have hundo : undoOp s tid date =
        ({ s with checkins :=
            s.checkins.filter fun q => decide (q.id ≠ r.id) },
         UndoResult.removed r.day r.ts) := by
      unfold undoOp
      dsimp only
      rw [hpick]
    have hinv1 : InvL (s.checkins.filter fun q => decide (q.id ≠ r.id))
        s.nextId := by
      have h0 := invL_undo s tid date hinv
      rw [hundo] at h0
      exact h0
    have hdup1 : ¬ ∃ q ∈ s.checkins.filter fun q => decide (q.id ≠ r.id),
        q.telegram_id = tid ∧ q.local_date = date := by
      rintro ⟨q, hq, hqt, hqd⟩
      have hqcs : q ∈ s.checkins := List.mem_of_mem_filter hq
      have hqr : q = r := hinv.daily q hqcs r hr (by rw [hqt, hrt])
        (by rw [hqd, hrd])
      have h0 := (List.mem_filter.mp hq).2
      rw [hqr] at h0
      simp at h0
    have hmem : r.day ∈ daysOf s.checkins tid (weekStart date) :=
      mem_daysOf.mpr ⟨r, hr, hrt, hrw, rfl⟩
    have hmax : ∀ d ∈ daysOf s.checkins tid (weekStart date), d ≤ r.day := by
      intro d hd
      obtain ⟨q, hqcs, hqt, hqw, hqd⟩ := mem_daysOf.mp hd
      by_cases hqr : q = r
      · subst hqr
        omega
      · have hlt := hstrict q (mem_weekRecs.mpr ⟨hqcs, hqt, hqw⟩) hqr
        by_contra hgt
        push_neg at hgt
        have hdq : r.day < q.day := by omega
        have := (hinv.ts_day r hr q hqcs (by rw [hrt, hqt])
          (by rw [hrw, hqw])).mp hdq
        omega
    have hiff := daysOf_after_erase s tid date r hinv hr hrt hrw
    have hnn : next_needed (s.checkins.filter fun q => decide (q.id ≠ r.id))
        tid (weekStart date) = r.day :=
      next_needed_after_erase s tid date r hinv hmem hmax hiff hinv1
    have haccept : cb_day
        { s with checkins := s.checkins.filter fun q => decide (q.id ≠ r.id) }
        tid r.day date ts g =
        cb_day_post
          { s with checkins :=
              s.checkins.filter fun q => decide (q.id ≠ r.id) }
          tid r.team_name r.day date ts
          ((daysOf (s.checkins.filter fun q => decide (q.id ≠ r.id)) tid
            (weekStart date)).insertionSort (· ≤ ·)) g :=
      cb_day_accept _ tid r.day date ts g r.team_name husers hdup1 hnn.symm
    have hins := cb_day_post_insert
      { s with checkins := s.checkins.filter fun q => decide (q.id ≠ r.id) }
      tid r.team_name r.day date ts
      ((daysOf (s.checkins.filter fun q => decide (q.id ≠ r.id)) tid
        (weekStart date)).insertionSort (· ≤ ·)) g hdup1
    have hproj : projRec (mkRec s.nextId tid r.team_name (weekStart date)
        r.day ts date) = projRec r := by
      simp [projRec, mkRec, hrt, hrw, hrd, hinv.minutes_eq r hr]
    refine ⟨?_, ?_, hproj, ?_⟩
    · rw [hundo]
      dsimp only
      rw [haccept]
      exact hins.2.2.2
    · rw [hundo]
      dsimp only
      rw [haccept]
      exact hins.1
    · rw [hundo]
      dsimp only
      rw [haccept, hins.1]
      exact perm_proj_replace hr hinv.ids_nodup hproj

/-- Witness for C9: on the store holding the single row id 1, the undo at the
current date deletes exactly that row (general clause at a concrete pick) and
the same-day redo of slot 1 is accepted (scenario clause). -/
theorem claim_C9_witness :
    (undoOp dupState 1 700 =
      ({ dupState with checkins :=
          dupState.checkins.filter fun q => decide (q.id ≠ 1) },
       UndoResult.removed 1 5)) ∧
    (cb_day (undoOp dupState 1 700).1 1 1 700 6 false).2 =
      CbResult.logged 1 :=
  ⟨(claim_C9.2.1 dupState 1 700 ⟨1, 1, "Mike", 700, 1, 20, 5, 700⟩
      (Reachable.checkin _ 1 1 700 5 false
        (Reachable.reg _ 1 "Mike" Reachable.init) (by decide) (by decide))
      (by decide)).2.2.2.2.1,
   (claim_C9.2.2 dupState 1 700 6 false ⟨1, 1, "Mike", 700, 1, 20, 5, 700⟩
      (Reachable.checkin _ 1 1 700 5 false
        (Reachable.reg _ 1 "Mike" Reachable.init) (by decide) (by decide))
      (by decide) (by decide) (by decide) (by decide) (by decide)
      (by decide)).1⟩
